import Mathlib

/-!
# 2D feature matching: a shallow embedding of `matching2D_Student.cpp`

The file `src/matching2D_Student.cpp` wraps OpenCV: it selects a detector, a
descriptor extractor or a matcher by name, forwards the call and post-processes
the result.  The embedding below keeps the control flow of the five functions
(`matchDescriptors`, `descKeypoints`, `detKeypointsShiTomasi`,
`detKeypointsHarris`, `detKeypointsModern`) and takes the OpenCV routines they
call as a record of functions (`OpenCV`).

* A `cv::Ptr<T>` is an `Option T`; calling through an empty pointer is the
  fault `Fault.nullPointer`.
* `std::vector<T>` is `List T`; `operator[]` beyond the size is the fault
  `Fault.outOfRange`.
* `float` and `double` are modelled by `F32` and `F64` with round-to-nearest-even
  arithmetic on binary significands.
* `int` is `Int` wrapped to 32 bits where the source multiplies.
* The tick counter (`cv::getTickCount`) and the values written through
  `time_one` / `time_two` are wall-clock readings and are left out.
-/

set_option autoImplicit false
set_option maxRecDepth 8000

namespace Matching2D

/-! ## Binary floating point -/

/-- Worker of `ilog2`: `fuel` bounds the number of halvings. -/
def ilog2Aux : Nat → Nat → Nat
  | 0, _ => 0
  | fuel + 1, n => if n < 2 then 0 else ilog2Aux fuel (n / 2) + 1

/-- Position of the leading one bit: `⌊log₂ n⌋` for `n > 0`, and `0` for `n = 0`. -/
def ilog2 (n : Nat) : Nat := ilog2Aux n n

/-- Round the non-negative rational `n / d` (`d > 0`) to a binary significand of
`p` bits, to nearest with ties to even.  The result `(q, t)` stands for
`q * 2 ^ t`; for `n > 0` it is normalised, `2 ^ (p - 1) ≤ q ≤ 2 ^ p`.

The quotient is first computed with at least `p + 2` bits (`Q`, remainder `R`),
then cut to `p` bits (`q`, the cut-off bits `r`), and rounded up when the
discarded part exceeds half a unit in the last place, or equals it and `q` is odd. -/
def roundSig (p n d : Nat) : Nat × Int :=
  if n = 0 then (0, 0) else
  let k := (p + 2 + ilog2 d) - ilog2 n
  let N := n * 2 ^ k
  let Q := N / d
  let R := N % d
  let s := ilog2 Q - (p - 1)
  let q := Q / 2 ^ s
  let r := Q % 2 ^ s
  let half := 2 ^ (s - 1)
  let up : Bool :=
    decide (half < r) || (decide (r = half) && (decide (R ≠ 0) || decide (q % 2 = 1)))
  (if up then q + 1 else q, (s : Int) - (k : Int))

/-- A C++ `float` (IEEE-754 binary32): NaN, an infinity, or the finite value
`(-1)^neg * m * 2 ^ (e - 149)` with `m < 2 ^ 24` and `-149 ≤ e - 149 ≤ 104`.
Every finite binary32 value, subnormals included, has this form. -/
inductive F32 where
  | nan
  | inf (neg : Bool)
  | fin (neg : Bool) (m : Fin (2 ^ 24)) (e : Fin 254)
  deriving DecidableEq

/-- A C++ `double` (IEEE-754 binary64): NaN, an infinity, or the finite value
`(-1)^neg * m * 2 ^ e`.  Arithmetic rounds the significand to 53 bits and leaves
the exponent unbounded, which is IEEE arithmetic as long as no result overflows
or falls in the subnormal range; products, quotients and conversions of
`float` and `int` operands never do. -/
inductive F64 where
  | nan
  | inf (neg : Bool)
  | fin (neg : Bool) (m : Nat) (e : Int)
  deriving DecidableEq

namespace F64

/-- The `double` nearest to `(-1)^neg * (n / d) * 2 ^ e`. -/
def ofRat (neg : Bool) (n d : Nat) (e : Int) : F64 :=
  let r := roundSig 53 n d
  .fin neg r.1 (r.2 + e)

/-- The value of a decimal literal `n / 10 ^ k` in the source text. -/
def ofDecimal (n k : Nat) : F64 := ofRat false n (10 ^ k) 0

/-- Conversion `float → double`; exact. -/
def ofF32 : F32 → F64
  | .nan => .nan
  | .inf s => .inf s
  | .fin s m e => .fin s m.val ((e.val : Int) - 149)

/-- Conversion `int → double`. -/
def ofInt (n : Int) : F64 := ofRat (decide (n < 0)) n.natAbs 1 0

/-- The signed significand `(-1)^neg * m`. -/
def signed (neg : Bool) (m : Nat) : Int := if neg then -(m : Int) else (m : Int)

/-- The integer `(-1)^neg * m * 2 ^ (e - c)`, for an exponent `c ≤ e`. -/
def scaled (neg : Bool) (m : Nat) (e c : Int) : Int := signed neg (m * 2 ^ (e - c).toNat)

/-- Comparison `<` of two finite values, after aligning the exponents. -/
def finLt (s : Bool) (m : Nat) (e : Int) (s' : Bool) (m' : Nat) (e' : Int) : Bool :=
  let c := min e e'
  decide (scaled s m e c < scaled s' m' e' c)

/-- IEEE `a < b`: false whenever an operand is NaN. -/
def lt : F64 → F64 → Bool
  | .nan, _ => false
  | _, .nan => false
  | .inf s, .inf s' => s && !s'
  | .inf s, .fin _ _ _ => s
  | .fin _ _ _, .inf s' => !s'
  | .fin s m e, .fin s' m' e' => finLt s m e s' m' e'

/-- IEEE `a ≤ b`: false whenever an operand is NaN. -/
def le : F64 → F64 → Bool
  | .nan, _ => false
  | _, .nan => false
  | .inf s, .inf s' => s || !s'
  | .inf s, .fin _ _ _ => s
  | .fin _ _ _, .inf s' => !s'
  | .fin s m e, .fin s' m' e' => !finLt s' m' e' s m e

/-- IEEE multiplication. -/
def mul : F64 → F64 → F64
  | .nan, _ => .nan
  | _, .nan => .nan
  | .inf s, .inf s' => .inf (xor s s')
  | .inf s, .fin s' m' _ => if m' = 0 then .nan else .inf (xor s s')
  | .fin s m _, .inf s' => if m = 0 then .nan else .inf (xor s s')
  | .fin s m e, .fin s' m' e' => ofRat (xor s s') (m * m') 1 (e + e')

/-- IEEE division. -/
def div : F64 → F64 → F64
  | .nan, _ => .nan
  | _, .nan => .nan
  | .inf _, .inf _ => .nan
  | .inf s, .fin s' _ _ => .inf (xor s s')
  | .fin s _ _, .inf s' => .fin (xor s s') 0 0
  | .fin s m e, .fin s' m' e' =>
    if m' = 0 then (if m = 0 then .nan else .inf (xor s s'))
    else ofRat (xor s s') m m' (e - e')

/-- IEEE subtraction. -/
def sub : F64 → F64 → F64
  | .nan, _ => .nan
  | _, .nan => .nan
  | .inf s, .inf s' => if s = s' then .nan else .inf s
  | .inf s, .fin _ _ _ => .inf s
  | .fin _ _ _, .inf s' => .inf (!s')
  | .fin s m e, .fin s' m' e' =>
    let c := min e e'
    let d := scaled s m e c - scaled s' m' e' c
    if d = 0 then .fin (s && !s') 0 0 else ofRat (decide (d < 0)) d.natAbs 1 c

/-- The function `std::max(a, b)`, which is `(a < b) ? b : a`. -/
def max (a b : F64) : F64 := if lt a b then b else a

/-- Conversion `double → int`: truncation toward zero.  The conversion is
undefined (`none`) for NaN, the infinities and values outside the range of `int`. -/
def toInt : F64 → Option Int
  | .nan => none
  | .inf _ => none
  | .fin s m e =>
    let t : Nat := if 0 ≤ e then m * 2 ^ e.toNat else m / 2 ^ (-e).toNat
    let v := signed s t
    if -2 ^ 31 ≤ v ∧ v < 2 ^ 31 then some v else none

end F64

namespace F32

/-- The value `+0.0f`. -/
def zero : F32 := .fin false ⟨0, by decide⟩ ⟨0, by decide⟩

/-- Comparison `a < b` of two `float`s. -/
def lt (a b : F32) : Bool := F64.lt (F64.ofF32 a) (F64.ofF32 b)

/-- Comparison `a ≤ b` of two `float`s. -/
def le (a b : F32) : Bool := F64.le (F64.ofF32 a) (F64.ofF32 b)

/-- Conversion `int → float` of a 32-bit integer: rounded to 24 bits. -/
def ofInt (n : Int) : F32 :=
  let r := roundSig 24 n.natAbs 1
  let m := if r.1 = 2 ^ 24 then 2 ^ 23 else r.1
  let e := if r.1 = 2 ^ 24 then r.2 + 150 else r.2 + 149
  if h : m < 2 ^ 24 ∧ 0 ≤ e ∧ e.toNat < 254 then
    .fin (decide (n < 0)) ⟨m, h.1⟩ ⟨e.toNat, h.2.2⟩
  else .inf (decide (n < 0))

end F32

/-! ## OpenCV data -/

/-- A `cv::Point2f`. -/
structure Point2f where
  x : F32
  y : F32
  deriving DecidableEq

/-- A `cv::KeyPoint`. -/
structure KeyPoint where
  pt : Point2f
  size : F32
  angle : F32
  response : F32
  octave : Int
  class_id : Int
  deriving DecidableEq

/-- A `cv::DMatch`. -/
structure DMatch where
  queryIdx : Int
  trainIdx : Int
  imgIdx : Int
  distance : F32
  deriving DecidableEq

/-- The integer returned by `cv::Mat::type()`. -/
abbrev MatType := Int

/-- OpenCV's type code of a single-channel matrix of 32-bit floats. -/
def CV_32F : MatType := 5

/-- OpenCV's type code of a single-channel matrix of unsigned bytes. -/
def CV_8U : MatType := 0

/-- A `cv::Mat`: its dimensions, its element type and its payload. -/
structure Mat where
  rows : Int
  cols : Int
  type : MatType
  data : List Nat
  deriving DecidableEq

/-- The two norm codes that `matchDescriptors` passes to `cv::BFMatcher::create`. -/
inductive NormType where
  | NORM_HAMMING
  | NORM_L2
  deriving DecidableEq

/-- What a non-null `cv::Ptr<cv::DescriptorMatcher>` built by `matchDescriptors`
points to. -/
inductive DescriptorMatcher where
  | BFMatcher (normType : NormType) (crossCheck : Bool)
  | FLANNBASED
  deriving DecidableEq

/-- What a non-null `cv::Ptr<cv::DescriptorExtractor>` built by `descKeypoints`
points to, with the arguments of the `create` call. -/
inductive DescriptorExtractor where
  | BRISK (threshold octaves : Int) (patternScale : F32)
  | SIFT
  | ORB (nfeatures : Int)
  | AKAZE
  | FREAK
  | BRIEF
  deriving DecidableEq

/-- The constant `cv::FastFeatureDetector::TYPE_9_16`, the only detector type used. -/
inductive FastType where
  | TYPE_9_16
  deriving DecidableEq

/-- What a non-null `cv::Ptr<cv::FeatureDetector>` built by `detKeypointsModern`
points to, with the arguments of the `create` call. -/
inductive FeatureDetector where
  | FAST (threshold : Int) (bNMS : Bool) (type : FastType)
  | BRISK
  | SIFT
  | ORB (nfeatures : Int)
  | AKAZE
  deriving DecidableEq

/-- The ways in which the functions can leave defined behaviour. -/
inductive Fault where
  | nullPointer
  | outOfRange
  | badConversion
  deriving DecidableEq

deriving instance DecidableEq for Except

/-- The OpenCV routines the file calls.  Output parameters become results:
`match_` and `detect` receive the prior content of the vector they overwrite. -/
structure OpenCV where
  /-- The call `m.convertTo(m, rtype)`. -/
  convertTo : Mat → MatType → Mat
  /-- The call `matcher->match(query, train, matches)`. -/
  match_ : DescriptorMatcher → Mat → Mat → List DMatch → List DMatch
  /-- The call `matcher->knnMatch(query, train, knn_matches, k)` on an empty `knn_matches`. -/
  knnMatch : DescriptorMatcher → Mat → Mat → Int → List (List DMatch)
  /-- The call `extractor->compute(img, keypoints, descriptors)`. -/
  compute : DescriptorExtractor → Mat → List KeyPoint → Mat → List KeyPoint × Mat
  /-- The call `cv::goodFeaturesToTrack(img, corners, maxCorners, qualityLevel,
  minDistance, cv::Mat(), blockSize, useHarrisDetector, k)` on an empty `corners`. -/
  goodFeaturesToTrack : Mat → Int → F64 → F64 → Int → Bool → F64 → List Point2f
  /-- The call `detector->detect(img, keypoints)`. -/
  detect : FeatureDetector → Mat → List KeyPoint → List KeyPoint
  /-- A default-constructed `cv::KeyPoint`. -/
  newKeyPoint : KeyPoint

/-- Lexicographic three-way comparison of two character sequences. -/
def compareChars : List Char → List Char → Int
  | [], [] => 0
  | [], _ :: _ => -1
  | _ :: _, [] => 1
  | a :: as, b :: bs =>
    if a.toNat < b.toNat then -1
    else if b.toNat < a.toNat then 1
    else compareChars as bs

/-- The method `std::string::compare`: zero exactly when the strings are equal,
negative or positive by lexicographic order otherwise. -/
def compare (a b : String) : Int := compareChars a.data b.data

/-! ## `matchDescriptors` -/

/-- A call made through the matcher pointer, with the arguments it received. -/
inductive MatcherCall where
  | match_ (matcher : DescriptorMatcher) (query train : Mat)
  | knnMatch (matcher : DescriptorMatcher) (query train : Mat) (k : Int)
  deriving DecidableEq

/-- What `matchDescriptors` leaves behind: the two descriptor matrices and the
`matches` vector (all passed by reference), and the calls made through the matcher. -/
structure MatchResult where
  descSource : Mat
  descRef : Mat
  matches_ : List DMatch
  calls : List MatcherCall
  deriving DecidableEq

/-- The local `double minDistRatio = 0.8`. -/
def minDistRatio : F64 := F64.ofDecimal 8 1

/-- The condition `(*it)[0].distance < minDistRatio * (*it)[1].distance` (line 49):
both `float` distances are promoted to `double`. -/
def ratioTest (best second : DMatch) : Bool :=
  F64.lt (F64.ofF32 best.distance) (F64.mul minDistRatio (F64.ofF32 second.distance))

/-- The loop of lines 48-52 over `knn_matches`, pushing onto `matches`.  Both
`(*it)[0]` and `(*it)[1]` are read in every iteration. -/
def ratioLoop : List (List DMatch) → List DMatch → Except Fault (List DMatch)
  | [], matches_ => .ok matches_
  | it :: rest, matches_ =>
    match it[0]?, it[1]? with
    | some best, some second =>
      if ratioTest best second then ratioLoop rest (matches_ ++ [best])
      else ratioLoop rest matches_
    | _, _ => .error .outOfRange

/-- Lines 11-28, "configure matcher": the matcher pointer and the two descriptor
matrices after the optional conversion. -/
def configureMatcher (cv : OpenCV) (descSource descRef : Mat)
    (descriptorType matcherType : String) : Option DescriptorMatcher × Mat × Mat :=
  let crossCheck := false
  if compare matcherType "MAT_BF" = 0 then
    let normType :=
      if compare descriptorType "DES_BINARY" = 0 then NormType.NORM_HAMMING else NormType.NORM_L2
    (some (.BFMatcher normType crossCheck), descSource, descRef)
  else if compare matcherType "MAT_FLANN" = 0 then
    if descSource.type ≠ CV_32F then
      let descSource := cv.convertTo descSource CV_32F
      let descRef := cv.convertTo descRef CV_32F
      (some .FLANNBASED, descSource, descRef)
    else
      (some .FLANNBASED, descSource, descRef)
  else
    (none, descSource, descRef)

/-- The function `matchDescriptors` (lines 7-56). -/
def matchDescriptors (cv : OpenCV) (_kPtsSource _kPtsRef : List KeyPoint)
    (descSource descRef : Mat) (matches_ : List DMatch)
    (descriptorType matcherType selectorType : String) : Except Fault MatchResult :=
  match configureMatcher cv descSource descRef descriptorType matcherType with
  | (matcher, descSource, descRef) =>
    if compare selectorType "SEL_NN" = 0 then
      match matcher with
      | none => .error .nullPointer
      | some m =>
        .ok { descSource := descSource, descRef := descRef,
              matches_ := cv.match_ m descSource descRef matches_,
              calls := [.match_ m descSource descRef] }
    else if compare selectorType "SEL_KNN" = 0 then
      match matcher with
      | none => .error .nullPointer
      | some m =>
        let knn_matches := cv.knnMatch m descSource descRef 2
        (ratioLoop knn_matches matches_).map fun matches_ =>
          { descSource := descSource, descRef := descRef, matches_ := matches_,
            calls := [.knnMatch m descSource descRef 2] }
    else
      .ok { descSource := descSource, descRef := descRef, matches_ := matches_, calls := [] }

/-! ## `descKeypoints` -/

/-- Lines 62-94, "select appropriate descriptor": the extractor pointer. -/
def selectExtractor (descriptorType : String) : Option DescriptorExtractor :=
  if compare descriptorType "BRISK" = 0 then
    let threshold : Int := 30
    let octaves : Int := 3
    let patternScale : F32 := F32.ofInt 1 -- the literal `1.0f`
    some (.BRISK threshold octaves patternScale)
  else if compare descriptorType "SIFT" = 0 then
    some .SIFT
  else if compare descriptorType "ORB" = 0 then
    let nfeatures : Int := 1000
    some (.ORB nfeatures)
  else if compare descriptorType "AKAZE" = 0 then
    some .AKAZE
  else if compare descriptorType "FREAK" = 0 then
    some .FREAK
  else if compare descriptorType "BRIEF" = 0 then
    some .BRIEF
  else
    none

/-- The function `descKeypoints` (lines 59-104): the `keypoints` vector and the
`descriptors` matrix after the call of `compute`. -/
def descKeypoints (cv : OpenCV) (keypoints : List KeyPoint) (img descriptors : Mat)
    (descriptorType : String) : Except Fault (List KeyPoint × Mat) :=
  match selectExtractor descriptorType with
  | none => .error .nullPointer
  | some extractor => .ok (cv.compute extractor img keypoints descriptors)

/-! ## `detKeypointsShiTomasi` and `detKeypointsHarris` -/

/-- Wrap-around of a 32-bit signed `int`. -/
def wrapInt32 (n : Int) : Int := (n + 2 ^ 31) % 2 ^ 32 - 2 ^ 31

/-- The arguments of a call of `cv::goodFeaturesToTrack`. -/
structure CornerCall where
  img : Mat
  maxCorners : Int
  qualityLevel : F64
  minDistance : F64
  blockSize : Int
  useHarrisDetector : Bool
  k : F64
  deriving DecidableEq

/-- What a corner-based detector leaves behind: the `keypoints` vector, the call
made to the corner detector, and whether the result window was shown. -/
structure CornerResult where
  keypoints : List KeyPoint
  call : CornerCall
  shown : Bool
  deriving DecidableEq

/-- The loop of lines 124-131, "add corners to result vector". -/
def detKeypointsShiTomasi.addCorners (cv : OpenCV) (blockSize : Int) :
    List Point2f → List KeyPoint → List KeyPoint
  | [], keypoints => keypoints
  | it :: rest, keypoints =>
    let newKeyPoint := cv.newKeyPoint
    let newKeyPoint := { newKeyPoint with pt := { x := it.x, y := it.y } }
    let newKeyPoint := { newKeyPoint with size := F32.ofInt blockSize }
    detKeypointsShiTomasi.addCorners cv blockSize rest (keypoints ++ [newKeyPoint])

/-- The function `detKeypointsShiTomasi` (lines 107-146). -/
def detKeypointsShiTomasi (cv : OpenCV) (keypoints : List KeyPoint) (img : Mat)
    (bVis : Bool) : Except Fault CornerResult :=
  let blockSize : Int := 4
  let maxOverlap : F64 := F64.ofDecimal 0 1
  let minDistance : F64 := F64.mul (F64.sub (F64.ofDecimal 10 1) maxOverlap) (F64.ofInt blockSize)
  match F64.toInt (F64.div (F64.ofInt (wrapInt32 (img.rows * img.cols)))
      (F64.max (F64.ofDecimal 10 1) minDistance)) with
  | none => .error .badConversion
  | some maxCorners =>
    let qualityLevel : F64 := F64.ofDecimal 1 2
    let k : F64 := F64.ofDecimal 4 2
    let corners := cv.goodFeaturesToTrack img maxCorners qualityLevel minDistance blockSize false k
    .ok { keypoints := detKeypointsShiTomasi.addCorners cv blockSize corners keypoints,
          call := { img := img, maxCorners := maxCorners, qualityLevel := qualityLevel,
                    minDistance := minDistance, blockSize := blockSize,
                    useHarrisDetector := false, k := k },
          shown := bVis }

/-- The loop of lines 166-173, "add corners to result vector". -/
def detKeypointsHarris.addCorners (cv : OpenCV) (blockSize : Int) :
    List Point2f → List KeyPoint → List KeyPoint
  | [], keypoints => keypoints
  | it :: rest, keypoints =>
    let newKeyPoint := cv.newKeyPoint
    let newKeyPoint := { newKeyPoint with pt := { x := it.x, y := it.y } }
    let newKeyPoint := { newKeyPoint with size := F32.ofInt blockSize }
    detKeypointsHarris.addCorners cv blockSize rest (keypoints ++ [newKeyPoint])

/-- The function `detKeypointsHarris` (lines 149-188). -/
def detKeypointsHarris (cv : OpenCV) (keypoints : List KeyPoint) (img : Mat)
    (bVis : Bool) : Except Fault CornerResult :=
  let blockSize : Int := 4
  let maxOverlap : F64 := F64.ofDecimal 0 1
  let minDistance : F64 := F64.mul (F64.sub (F64.ofDecimal 10 1) maxOverlap) (F64.ofInt blockSize)
  match F64.toInt (F64.div (F64.ofInt (wrapInt32 (img.rows * img.cols)))
      (F64.max (F64.ofDecimal 10 1) minDistance)) with
  | none => .error .badConversion
  | some maxCorners =>
    let qualityLevel : F64 := F64.ofDecimal 1 2
    let k : F64 := F64.ofDecimal 4 2
    let corners := cv.goodFeaturesToTrack img maxCorners qualityLevel minDistance blockSize true k
    .ok { keypoints := detKeypointsHarris.addCorners cv blockSize corners keypoints,
          call := { img := img, maxCorners := maxCorners, qualityLevel := qualityLevel,
                    minDistance := minDistance, blockSize := blockSize,
                    useHarrisDetector := true, k := k },
          shown := bVis }

/-! ## `detKeypointsModern` -/

/-- Lines 192-217: the detector pointer. -/
def selectDetector (detectorType : String) : Option FeatureDetector :=
  if compare detectorType "FAST" = 0 then
    let threshold : Int := 30
    let bNMS := true
    let type := FastType.TYPE_9_16
    some (.FAST threshold bNMS type)
  else if compare detectorType "BRISK" = 0 then
    some .BRISK
  else if compare detectorType "SIFT" = 0 then
    some .SIFT
  else if compare detectorType "ORB" = 0 then
    let nfeatures : Int := 1000
    some (.ORB nfeatures)
  else if compare detectorType "AKAZE" = 0 then
    some .AKAZE
  else
    none

/-- The function `detKeypointsModern` (lines 190-236): the `keypoints` vector
after the call of `detect`, and whether the result window was shown. -/
def detKeypointsModern (cv : OpenCV) (keypoints : List KeyPoint) (img : Mat)
    (detectorType : String) (bVis : Bool) : Except Fault (List KeyPoint × Bool) :=
  match selectDetector detectorType with
  | none => .error .nullPointer
  | some detector => .ok (cv.detect detector img keypoints, bVis)

/-! ## Rational values and specification-side definitions -/

/-- The rational value `(-1)^neg * m * 2 ^ e` of a finite datum. -/
def F64.finVal (neg : Bool) (m : Nat) (e : Int) : ℚ := (F64.signed neg m : ℚ) * 2 ^ e

/-- The rational value of a `double`, when it is finite. -/
def F64.toRat : F64 → Option ℚ
  | .fin s m e => some (F64.finVal s m e)
  | _ => none

/-- The rational value of a `float`, when it is finite. -/
def F32.toRat (a : F32) : Option ℚ := F64.toRat (F64.ofF32 a)

/-- The first candidate of an entry that passes the ratio test, and nothing otherwise. -/
def ratioAccepted : List DMatch → Option DMatch
  | best :: second :: _ => if ratioTest best second then some best else none
  | _ => none

/-- The ratio test as the specification words it: `best < 0.8 * second`, computed
exactly over the rationals extended by the infinities; false when a distance is NaN. -/
def ratioTestExact : F32 → F32 → Bool
  | .nan, _ => false
  | _, .nan => false
  | .inf s, .inf s' => s && !s'
  | .inf s, .fin _ _ _ => s
  | .fin _ _ _, .inf s' => !s'
  | .fin s m e, .fin s' m' e' =>
    decide (F64.finVal s m.val ((e.val : Int) - 149)
      < 4 / 5 * F64.finVal s' m'.val ((e'.val : Int) - 149))

/-- The first candidate of an entry with `best < 0.8 * second`, and nothing otherwise:
the specification's reading of which entries are kept. -/
def ratioAcceptedExact : List DMatch → Option DMatch
  | best :: second :: _ =>
    if ratioTestExact best.distance second.distance then some best else none
  | _ => none

/-- The keypoint that the corner detectors build for a corner: a default
keypoint with the corner as position and the block size 4 as size. -/
def cornerKeyPoint (cv : OpenCV) (c : Point2f) : KeyPoint :=
  { cv.newKeyPoint with pt := c, size := F32.ofInt 4 }

/-! ## A concrete library, for the worked examples -/

/-- A match with the given query index and an integer distance. -/
def sampleMatch (queryIdx distance : Int) : DMatch :=
  { queryIdx := queryIdx, trainIdx := 0, imgIdx := 0, distance := F32.ofInt distance }

/-- A stand-in for OpenCV: `convertTo` changes the type code only, `knnMatch`
returns three fixed entries, the corner detector returns two fixed corners. -/
def sampleCV : OpenCV where
  convertTo m t := { m with type := t }
  match_ _ _ _ _ := [sampleMatch 0 1]
  knnMatch _ _ _ _ :=
    [[sampleMatch 0 1, sampleMatch 0 2], [sampleMatch 1 3, sampleMatch 1 3],
     [sampleMatch 2 0, sampleMatch 2 5]]
  compute _ _ keypoints descriptors := (keypoints, descriptors)
  goodFeaturesToTrack _ _ _ _ _ _ _ :=
    [{ x := F32.ofInt 1, y := F32.ofInt 2 }, { x := F32.ofInt 7, y := F32.ofInt 3 }]
  detect _ _ keypoints := keypoints
  newKeyPoint :=
    { pt := { x := F32.zero, y := F32.zero }, size := F32.zero, angle := F32.ofInt (-1),
      response := F32.zero, octave := 0, class_id := -1 }

/-- A 3 x 5 matrix of bytes. -/
def sampleMat : Mat := { rows := 3, cols := 5, type := CV_8U, data := [] }

/-- The same matrix with float elements. -/
def sampleMatF : Mat := { rows := 3, cols := 5, type := CV_32F, data := [] }

/-! ## String comparison -/

theorem compareChars_eq_zero_iff (a b : List Char) : compareChars a b = 0 ↔ a = b := by
  induction a generalizing b with
  | nil => cases b <;> simp [compareChars]
  | cons x xs ih =>
    cases b with
    | nil => simp [compareChars]
    | cons y ys =>
      unfold compareChars
      by_cases h1 : x.toNat < y.toNat
      · have : x ≠ y := fun h => by subst h; omega
        simp [h1, this]
      · by_cases h2 : y.toNat < x.toNat
        · have : x ≠ y := fun h => by subst h; omega
          simp [h1, h2, this]
        · have h3 : x.toNat = y.toNat := by omega
          have : x = y := Char.ext (UInt32.ext h3)
          simp [h1, h2, this, ih]

theorem compare_eq_zero_iff (a b : String) : compare a b = 0 ↔ a = b := by
  unfold compare
  rw [compareChars_eq_zero_iff]
  exact ⟨fun h => String.ext h, fun h => by rw [h]⟩

/-! ## Rounding -/

theorem ilog2Aux_eq (fuel n : Nat) (h : n ≤ fuel) : ilog2Aux fuel n = Nat.log2 n := by
  induction fuel generalizing n with
  | zero =>
    have : n = 0 := by omega
    subst this
    simp [ilog2Aux, Nat.log2]
  | succ f ih =>
    unfold ilog2Aux
    rw [Nat.log2]
    by_cases h2 : n < 2
    · have h3 : ¬ (2 ≤ n) := by omega
      simp [h2, h3]
    · have : n / 2 ≤ f := by omega
      have h3 : 2 ≤ n := by omega
      simp [h2, ih _ this, h3]

theorem ilog2_eq (n : Nat) : ilog2 n = Nat.log2 n := ilog2Aux_eq n n (le_refl n)

theorem ilog2_le {n : Nat} (h : n ≠ 0) : 2 ^ ilog2 n ≤ n := by
  rw [ilog2_eq]; exact Nat.log2_self_le h

theorem lt_ilog2 (n : Nat) : n < 2 ^ (ilog2 n + 1) := by
  rw [ilog2_eq]; exact Nat.lt_log2_self

/-- The quotient computed by `roundSig` has at least `p + 2` bits. -/
theorem roundSig_quot_big (p n d : Nat) (hn : 0 < n) (hd : 0 < d) :
    2 ^ (p + 1) ≤ n * 2 ^ ((p + 2 + ilog2 d) - ilog2 n) / d := by
  rw [Nat.le_div_iff_mul_le hd]
  have h1 : d < 2 ^ (ilog2 d + 1) := lt_ilog2 d
  have h2 : 2 ^ ilog2 n ≤ n := ilog2_le hn.ne'
  have h3 : p + 2 + ilog2 d ≤ ilog2 n + ((p + 2 + ilog2 d) - ilog2 n) := by omega
  calc 2 ^ (p + 1) * d ≤ 2 ^ (p + 1) * 2 ^ (ilog2 d + 1) := Nat.mul_le_mul_left _ h1.le
    _ = 2 ^ (p + 2 + ilog2 d) := by rw [← pow_add]; congr 1; omega
    _ ≤ 2 ^ (ilog2 n + ((p + 2 + ilog2 d) - ilog2 n)) := Nat.pow_le_pow_right (by norm_num) h3
    _ = 2 ^ ilog2 n * 2 ^ ((p + 2 + ilog2 d) - ilog2 n) := by rw [pow_add]
    _ ≤ n * 2 ^ ((p + 2 + ilog2 d) - ilog2 n) := Nat.mul_le_mul_right _ h2

theorem roundSig_spec (p n d : Nat) (hp : 1 ≤ p) (hn : 0 < n) (hd : 0 < d) :
    ∃ (q : ℕ) (f : ℚ), 2 ^ (p - 1) ≤ q ∧ q < 2 ^ p ∧ 0 ≤ f ∧ f < 1 ∧
      (n : ℚ) / d = ((q : ℚ) + f) * 2 ^ (roundSig p n d).2 ∧
      (((roundSig p n d).1 = q ∧ f ≤ 1 / 2) ∨ ((roundSig p n d).1 = q + 1 ∧ 1 / 2 ≤ f)) := by
  have hbig := roundSig_quot_big p n d hn hd
  unfold roundSig
  simp only [hn.ne', if_false]
  generalize hk : (p + 2 + ilog2 d) - ilog2 n = k at hbig ⊢
  have hN : d * (n * 2 ^ k / d) + n * 2 ^ k % d = n * 2 ^ k := Nat.div_add_mod _ _
  have hRlt : n * 2 ^ k % d < d := Nat.mod_lt _ hd
  generalize hQ : n * 2 ^ k / d = Q at hbig hN ⊢
  generalize hR : n * 2 ^ k % d = R at hN hRlt ⊢
  have hQ0 : Q ≠ 0 := by
    have : 0 < 2 ^ (p + 1) := by positivity
    omega
  have hL1 : 2 ^ ilog2 Q ≤ Q := ilog2_le hQ0
  have hL2 : Q < 2 ^ (ilog2 Q + 1) := lt_ilog2 Q
  have hL : p + 1 ≤ ilog2 Q := by
    have : 2 ^ (p + 1) < 2 ^ (ilog2 Q + 1) := lt_of_le_of_lt hbig hL2
    have := (Nat.pow_lt_pow_iff_right (by norm_num : 1 < 2)).1 this
    omega
  generalize hLL : ilog2 Q = L at hL1 hL2 hL ⊢
  obtain ⟨s, hs⟩ : ∃ s, s = L - (p - 1) := ⟨_, rfl⟩
  rw [← hs]
  have hs2 : 2 ≤ s := by omega
  have hLs : L = (p - 1) + s := by omega
  have hqr : 2 ^ s * (Q / 2 ^ s) + Q % 2 ^ s = Q := Nat.div_add_mod _ _
  have hrlt : Q % 2 ^ s < 2 ^ s := Nat.mod_lt _ (by positivity)
  have hq1 : 2 ^ (p - 1) ≤ Q / 2 ^ s := by
    rw [Nat.le_div_iff_mul_le (by positivity)]
    calc 2 ^ (p - 1) * 2 ^ s = 2 ^ L := by rw [hLs, pow_add]
      _ ≤ Q := hL1
  have hq2 : Q / 2 ^ s < 2 ^ p := by
    rw [Nat.div_lt_iff_lt_mul (by positivity)]
    calc Q < 2 ^ (L + 1) := hL2
      _ = 2 ^ p * 2 ^ s := by rw [← pow_add]; congr 1; omega
  generalize hq : Q / 2 ^ s = q at hqr hq1 hq2 ⊢
  generalize hr : Q % 2 ^ s = r at hqr hrlt ⊢
  have hhalf : 2 * 2 ^ (s - 1) = 2 ^ s := by
    rw [← pow_succ']; congr 1; omega
  generalize hh : 2 ^ (s - 1) = half at hhalf ⊢
  -- rational facts
  have hdq : (0 : ℚ) < d := by exact_mod_cast hd
  have h2s : (0 : ℚ) < 2 ^ s := by positivity
  have h2k : (0 : ℚ) < 2 ^ k := by positivity
  have hRd0 : (0 : ℚ) ≤ (R : ℚ) / d := by positivity
  have hRd1 : (R : ℚ) / d < 1 := by
    rw [div_lt_one hdq]; exact_mod_cast hRlt
  have hrq : (r : ℚ) + 1 ≤ 2 ^ s := by exact_mod_cast hrlt
  have hhalfq : (2 : ℚ) * half = 2 ^ s := by exact_mod_cast hhalf
  have hNq : (d : ℚ) * Q + R = n * 2 ^ k := by exact_mod_cast hN
  have hqrq : (2 : ℚ) ^ s * q + r = Q := by exact_mod_cast hqr
  refine ⟨q, ((r : ℚ) + R / d) / 2 ^ s, hq1, hq2, by positivity, ?_, ?_, ?_⟩
  · rw [div_lt_one h2s]; linarith
  · have hz : (2 : ℚ) ^ ((s : ℤ) - (k : ℤ)) = 2 ^ s / 2 ^ k := by
      rw [zpow_sub₀ (by norm_num), zpow_natCast, zpow_natCast]
    simp only [hz]
    have e1 : ((q : ℚ) + ((r : ℚ) + R / d) / 2 ^ s) * 2 ^ s = Q + R / d := by
      rw [add_mul, div_mul_cancel₀ _ h2s.ne', ← hqrq]; ring
    have e2 : (n : ℚ) / d = (Q + R / d) / 2 ^ k := by
      rw [eq_div_iff h2k.ne', div_mul_eq_mul_div, ← hNq]
      field_simp
      ring
    rw [e2, ← e1]
    ring
  · by_cases hup : (decide (half < r) || (decide (r = half) && (decide (R ≠ 0) || decide (q % 2 = 1)))) = true
    · right
      rw [if_pos hup]
      refine ⟨rfl, ?_⟩
      rw [le_div_iff₀ h2s]
      simp only [Bool.or_eq_true, Bool.and_eq_true, decide_eq_true_eq] at hup
      rcases hup with h | ⟨h, _⟩
      · have : (half : ℚ) < r := by exact_mod_cast h
        linarith
      · have : (r : ℚ) = half := by exact_mod_cast h
        linarith
    · left
      rw [if_neg hup]
      refine ⟨rfl, ?_⟩
      rw [div_le_iff₀ h2s]
      simp only [Bool.or_eq_true, Bool.and_eq_true, decide_eq_true_eq, not_or, not_and, not_lt] at hup
      obtain ⟨h1, h2⟩ := hup
      rcases Nat.lt_or_eq_of_le h1 with h | h
      · have : (r : ℚ) + 1 ≤ half := by exact_mod_cast h
        linarith
      · have h3 := h2 h
        have hR0 : R = 0 := by
          by_contra hne
          exact (h3.1 hne)
        have hr2 : (r : ℚ) = half := by exact_mod_cast h
        have hR2 : (R : ℚ) = 0 := by exact_mod_cast hR0
        rw [hR2, zero_div, add_zero]
        linarith


theorem roundSig_fst_zero (p d : Nat) : roundSig p 0 d = (0, 0) := by
  simp [roundSig]

/-- Rounding never crosses a representable number from below. -/
theorem roundSig_le_repr (p n d a : Nat) (b : ℤ) (hp : 1 ≤ p) (hn : 0 < n) (hd : 0 < d)
    (ha : a < 2 ^ p) (h : (n : ℚ) / d ≤ a * 2 ^ b) :
    ((roundSig p n d).1 : ℚ) * 2 ^ (roundSig p n d).2 ≤ a * 2 ^ b := by
  obtain ⟨q, f, hq1, hq2, hf0, hf1, hv, hcase⟩ := roundSig_spec p n d hp hn hd
  generalize (roundSig p n d).2 = t at hv ⊢
  generalize (roundSig p n d).1 = q' at hcase ⊢
  have h2t : (0 : ℚ) < 2 ^ t := zpow_pos (by norm_num) t
  have hq1q : (2 : ℚ) ^ (p - 1) ≤ q := by exact_mod_cast hq1
  have hpp : (2 : ℚ) ^ p = 2 * 2 ^ (p - 1) := by
    rw [← pow_succ']; congr 1; omega
  have haq : (a : ℚ) + 1 ≤ 2 ^ p := by exact_mod_cast ha
  have hpos : (0 : ℚ) < 2 ^ (p - 1) := by positivity
  rw [hv] at h
  -- the exponent of the bound is at least that of the result
  have htb : t ≤ b := by
    by_contra hc
    have hb : b ≤ t - 1 := by omega
    have h1 : (2 : ℚ) ^ b ≤ 2 ^ (t - 1) := zpow_le_zpow_right₀ (by norm_num) hb
    have h2 : (2 : ℚ) ^ t = 2 * 2 ^ (t - 1) := by
      rw [zpow_sub₀ (by norm_num : (2 : ℚ) ≠ 0)]; field_simp
    have h3 : (0 : ℚ) < 2 ^ (t - 1) := zpow_pos (by norm_num) _
    have h4 : (a : ℚ) * 2 ^ b ≤ a * 2 ^ (t - 1) :=
      mul_le_mul_of_nonneg_left h1 (by positivity)
    have h5 : ((q : ℚ) + f) * 2 ^ t ≥ 2 ^ (p - 1) * (2 * 2 ^ (t - 1)) := by
      rw [h2]
      apply mul_le_mul_of_nonneg_right _ (by positivity)
      linarith
    nlinarith
  obtain ⟨j, hj⟩ : ∃ j : ℕ, b = t + j := ⟨(b - t).toNat, by omega⟩
  have hb2 : (2 : ℚ) ^ b = 2 ^ j * 2 ^ t := by
    rw [hj, zpow_add₀ (by norm_num), zpow_natCast]; ring
  rw [hb2, ← mul_assoc] at h ⊢
  have hY : (q : ℚ) + f ≤ ((a * 2 ^ j : ℕ) : ℚ) := by
    push_cast
    exact le_of_mul_le_mul_right h h2t
  apply mul_le_mul_of_nonneg_right _ h2t.le
  rcases hcase with ⟨h1, _⟩ | ⟨h1, h2⟩
  · rw [h1]; push_cast at hY; linarith
  · rw [h1]
    have : q < a * 2 ^ j := by
      have : (q : ℚ) < ((a * 2 ^ j : ℕ) : ℚ) := by linarith
      exact_mod_cast this
    have : q + 1 ≤ a * 2 ^ j := this
    exact_mod_cast this

/-- Rounding never crosses a representable number from above. -/
theorem roundSig_ge_repr (p n d a : Nat) (b : ℤ) (hp : 1 ≤ p) (hn : 0 < n) (hd : 0 < d)
    (ha : a < 2 ^ p) (h : (a : ℚ) * 2 ^ b ≤ (n : ℚ) / d) :
    (a : ℚ) * 2 ^ b ≤ ((roundSig p n d).1 : ℚ) * 2 ^ (roundSig p n d).2 := by
  obtain ⟨q, f, hq1, hq2, hf0, hf1, hv, hcase⟩ := roundSig_spec p n d hp hn hd
  generalize (roundSig p n d).2 = t at hv ⊢
  generalize (roundSig p n d).1 = q' at hcase ⊢
  have h2t : (0 : ℚ) < 2 ^ t := zpow_pos (by norm_num) t
  have hq1q : (2 : ℚ) ^ (p - 1) ≤ q := by exact_mod_cast hq1
  have hpp : (2 : ℚ) ^ p = 2 * 2 ^ (p - 1) := by
    rw [← pow_succ']; congr 1; omega
  have haq : (a : ℚ) + 1 ≤ 2 ^ p := by exact_mod_cast ha
  have hpos : (0 : ℚ) < 2 ^ (p - 1) := by positivity
  rw [hv] at h
  have hqq' : (q : ℚ) ≤ q' := by
    rcases hcase with ⟨h1, _⟩ | ⟨h1, _⟩
    · rw [h1]
    · rw [h1]; push_cast; linarith
  suffices hs : (a : ℚ) * 2 ^ b ≤ q * 2 ^ t from
    le_trans hs (mul_le_mul_of_nonneg_right hqq' h2t.le)
  by_cases htb : t ≤ b
  · obtain ⟨j, hj⟩ : ∃ j : ℕ, b = t + j := ⟨(b - t).toNat, by omega⟩
    have hb2 : (2 : ℚ) ^ b = 2 ^ j * 2 ^ t := by
      rw [hj, zpow_add₀ (by norm_num), zpow_natCast]; ring
    rw [hb2, ← mul_assoc] at h ⊢
    have hY : ((a * 2 ^ j : ℕ) : ℚ) ≤ (q : ℚ) + f := by
      push_cast
      exact le_of_mul_le_mul_right h h2t
    apply mul_le_mul_of_nonneg_right _ h2t.le
    have : a * 2 ^ j < q + 1 := by
      have : ((a * 2 ^ j : ℕ) : ℚ) < ((q + 1 : ℕ) : ℚ) := by push_cast; push_cast at hY; linarith
      exact_mod_cast this
    have : a * 2 ^ j ≤ q := by omega
    exact_mod_cast this
  · have hb : b ≤ t - 1 := by omega
    have h1 : (2 : ℚ) ^ b ≤ 2 ^ (t - 1) := zpow_le_zpow_right₀ (by norm_num) hb
    have h2 : (2 : ℚ) ^ t = 2 * 2 ^ (t - 1) := by
      rw [zpow_sub₀ (by norm_num : (2 : ℚ) ≠ 0)]; field_simp
    have h3 : (0 : ℚ) < 2 ^ (t - 1) := zpow_pos (by norm_num) _
    have h4 : (a : ℚ) * 2 ^ b ≤ a * 2 ^ (t - 1) :=
      mul_le_mul_of_nonneg_left h1 (by positivity)
    have h5 : (2 : ℚ) ^ (p - 1) * (2 * 2 ^ (t - 1)) ≤ (q : ℚ) * 2 ^ t := by
      rw [h2]
      exact mul_le_mul_of_nonneg_right hq1q (by positivity)
    nlinarith

/-- A number that fits the significand is not changed by rounding. -/
theorem roundSig_exact (p n d a : Nat) (b : ℤ) (hp : 1 ≤ p) (hn : 0 < n) (hd : 0 < d)
    (ha : a < 2 ^ p) (h : (n : ℚ) / d = a * 2 ^ b) :
    ((roundSig p n d).1 : ℚ) * 2 ^ (roundSig p n d).2 = a * 2 ^ b :=
  le_antisymm (roundSig_le_repr p n d a b hp hn hd ha h.le)
    (roundSig_ge_repr p n d a b hp hn hd ha h.ge)

/-! ## Comparison and the ratio test -/

theorem signed_cast (s : Bool) (m : Nat) :
    ((F64.signed s m : ℤ) : ℚ) = if s then -(m : ℚ) else (m : ℚ) := by
  cases s <;> simp [F64.signed]

theorem scaled_cast (s : Bool) (m : Nat) (e c : Int) (h : c ≤ e) :
    ((F64.scaled s m e c : ℤ) : ℚ) = F64.finVal s m e / 2 ^ c := by
  have hz : (2 : ℚ) ^ e = 2 ^ (e - c).toNat * 2 ^ c := by
    rw [← zpow_natCast, ← zpow_add₀ (by norm_num)]
    congr 1
    omega
  have hc : (0 : ℚ) < 2 ^ c := zpow_pos (by norm_num) c
  unfold F64.scaled F64.finVal
  rw [signed_cast, signed_cast, hz]
  cases s <;> simp <;> field_simp <;> ring

theorem finLt_iff (s : Bool) (m : Nat) (e : Int) (s' : Bool) (m' : Nat) (e' : Int) :
    F64.finLt s m e s' m' e' = true ↔ F64.finVal s m e < F64.finVal s' m' e' := by
  unfold F64.finLt
  simp only [decide_eq_true_eq]
  have hc : (0 : ℚ) < 2 ^ (min e e') := zpow_pos (by norm_num) _
  rw [← @Int.cast_lt ℚ, scaled_cast _ _ _ _ (min_le_left e e'),
    scaled_cast _ _ _ _ (min_le_right e e'), div_lt_div_iff_of_pos_right hc]


theorem minDistRatio_eq : minDistRatio = .fin false 7205759403792794 (-53) := by decide

/-- Scaling by `minDistRatio` does not increase a non-negative finite `float`. -/
theorem mul_ratio_le (m : Nat) (e : Int) (hm : m < 2 ^ 24) :
    ∃ q t, F64.mul minDistRatio (.fin false m e) = .fin false q t ∧
      F64.finVal false q t ≤ F64.finVal false m e := by
  rw [minDistRatio_eq]
  simp only [F64.mul, F64.ofRat, Bool.xor_false, Bool.false_xor]
  refine ⟨_, _, rfl, ?_⟩
  unfold F64.finVal
  simp only [signed_cast, Bool.false_eq_true, if_false]
  rcases Nat.eq_zero_or_pos m with h0 | hpos
  · subst h0
    simp [roundSig_fst_zero]
  · have hle := roundSig_le_repr 53 (7205759403792794 * m) 1 m 53 (by norm_num)
      (Nat.mul_pos (by norm_num) hpos) (by norm_num)
      (lt_trans hm (by norm_num)) (by
        push_cast
        have : (0 : ℚ) < m := by exact_mod_cast hpos
        rw [div_one]
        nlinarith)
    rw [zpow_add₀ (by norm_num), ← mul_assoc]
    have h2e : (0 : ℚ) < 2 ^ e := zpow_pos (by norm_num) e
    have h53 : (2 : ℚ) ^ (-53 + e) = 2 ^ e / 2 ^ (53 : ℤ) := by
      rw [zpow_add₀ (by norm_num), zpow_neg]; field_simp
    rw [h53]
    rw [mul_div_assoc', div_le_iff₀ (zpow_pos (by norm_num) _)]
    calc _ = (((roundSig 53 (7205759403792794 * m) 1).1 : ℚ) *
            2 ^ (roundSig 53 (7205759403792794 * m) 1).2) * 2 ^ e := by ring
      _ ≤ (m * 2 ^ (53 : ℤ)) * 2 ^ e := mul_le_mul_of_nonneg_right hle h2e.le
      _ = _ := by ring


theorem finVal_zero (s : Bool) (e : Int) : F64.finVal s 0 e = 0 := by
  cases s <;> simp [F64.finVal, F64.signed]

theorem finVal_nonneg_iff (s : Bool) (m : Nat) (e : Int) :
    0 ≤ F64.finVal s m e ↔ (s = false ∨ m = 0) := by
  have h2e : (0 : ℚ) < 2 ^ e := zpow_pos (by norm_num) e
  unfold F64.finVal
  rw [signed_cast]
  cases s
  · simp; positivity
  · simp only [if_true, Bool.true_eq_false, false_or]
    constructor
    · intro h
      by_contra hne
      have : (0 : ℚ) < m := by exact_mod_cast Nat.pos_of_ne_zero hne
      nlinarith
    · intro h; subst h; simp

/-- The ratio test on two non-negative distances implies that the best distance
is below the second-best one, which is positive. -/
theorem ratio_sound (d0 d1 : F32) (h0 : F32.le F32.zero d0 = true)
    (h1 : F32.le F32.zero d1 = true)
    (h : F64.lt (F64.ofF32 d0) (F64.mul minDistRatio (F64.ofF32 d1)) = true) :
    F32.lt d0 d1 = true ∧ F32.lt F32.zero d1 = true := by
  cases d1 with
  | nan => simp [F32.le, F64.le, F64.ofF32, F32.zero] at h1
  | inf s1 =>
    cases s1
    · cases d0 with
      | nan => simp [F32.le, F64.le, F64.ofF32, F32.zero] at h0
      | inf s0 =>
        cases s0
        · rw [minDistRatio_eq] at h
          simp [F64.ofF32, F64.mul, F64.lt] at h
        · simp [F32.le, F64.le, F64.ofF32, F32.zero] at h0
      | fin s0 m0 e0 => simp [F32.lt, F64.lt, F64.ofF32, F32.zero]
    · simp [F32.le, F64.le, F64.ofF32, F32.zero] at h1
  | fin s1 m1 e1 =>
    have hv1 : 0 ≤ F64.finVal s1 m1.val ((e1.val : Int) - 149) := by
      simp only [F32.le, F64.le, F64.ofF32, F32.zero, Bool.not_eq_true', ← Bool.not_eq_true,
        finLt_iff, finVal_zero, not_lt] at h1
      exact h1
    cases d0 with
    | nan => simp [F32.le, F64.le, F64.ofF32, F32.zero] at h0
    | inf s0 =>
      cases s0
      · rw [minDistRatio_eq] at h
        simp [F64.ofF32, F64.mul, F64.lt, F64.ofRat] at h
      · simp [F32.le, F64.le, F64.ofF32, F32.zero] at h0
    | fin s0 m0 e0 =>
      have hv0 : 0 ≤ F64.finVal s0 m0.val ((e0.val : Int) - 149) := by
        simp only [F32.le, F64.le, F64.ofF32, F32.zero, Bool.not_eq_true', ← Bool.not_eq_true,
          finLt_iff, finVal_zero, not_lt] at h0
        exact h0
      simp only [F32.lt, F64.lt, F64.ofF32, F32.zero, finLt_iff, finVal_zero]
      simp only [F64.ofF32] at h
      rcases (finVal_nonneg_iff _ _ _).1 hv1 with hs | hm
      · subst hs
        obtain ⟨q, t, hq, hle⟩ := mul_ratio_le m1.val ((e1.val : Int) - 149) m1.isLt
        rw [hq] at h
        simp only [F64.lt, finLt_iff] at h
        constructor <;> linarith
      · rw [minDistRatio_eq, hm] at h
        simp only [F64.mul, F64.ofRat, Nat.mul_zero, roundSig_fst_zero, F64.lt, finLt_iff,
          finVal_zero] at h
        linarith

/-! ## The corner budget -/

theorem trunc_quarter (q : ℕ) (E : ℤ) (a : ℕ) (h : (q : ℚ) * 2 ^ E = a / 4) :
    (if 0 ≤ E then q * 2 ^ E.toNat else q / 2 ^ (-E).toNat) = a / 4 := by
  by_cases hE : 0 ≤ E
  · rw [if_pos hE]
    obtain ⟨j, rfl⟩ : ∃ j : ℕ, E = j := ⟨E.toNat, by omega⟩
    rw [zpow_natCast] at h
    simp only [Int.toNat_ofNat]
    have h4 : 4 * (q * 2 ^ j) = a := by
      have : (4 : ℚ) * (q * 2 ^ j) = a := by rw [h]; ring
      exact_mod_cast this
    omega
  · rw [if_neg hE]
    obtain ⟨j, hj⟩ : ∃ j : ℕ, E = -(j : ℤ) := ⟨(-E).toNat, by omega⟩
    subst hj
    rw [zpow_neg, zpow_natCast] at h
    simp only [neg_neg, Int.toNat_ofNat]
    have h2j : (0 : ℚ) < 2 ^ j := by positivity
    have h4 : 4 * q = a * 2 ^ j := by
      have : (4 : ℚ) * q = a * 2 ^ j := by
        field_simp at h
        linarith
      exact_mod_cast this
    have : q / 2 ^ j = (4 * q) / (4 * 2 ^ j) := by
      rw [Nat.mul_div_mul_left _ _ (by norm_num : 0 < 4)]
    rw [this, h4, Nat.mul_div_mul_right _ _ (Nat.two_pow_pos j)]

theorem signed_tdiv (n : Int) : F64.signed (decide (n < 0)) (n.natAbs / 4) = n.tdiv 4 := by
  cases n with
  | ofNat k =>
    simp [F64.signed, Int.tdiv]
  | negSucc k =>
    simp [F64.signed, Int.tdiv, Int.negSucc_lt_zero]

/-- The quotient of an `int` by `4.0`, truncated back to `int`, is the integer quotient. -/
theorem toInt_div_four (n : Int) (hlo : -2 ^ 31 ≤ n) (hhi : n < 2 ^ 31) :
    F64.toInt (F64.div (F64.ofInt n) (.fin false (2 ^ 52) (-50))) = some (n.tdiv 4) := by
  have hsz : n.natAbs ≤ 2 ^ 31 := by omega
  have hrange : -2 ^ 31 ≤ F64.signed (decide (n < 0)) (n.natAbs / 4) ∧
      F64.signed (decide (n < 0)) (n.natAbs / 4) < 2 ^ 31 := by
    have hx : n.natAbs / 4 ≤ 2 ^ 29 := by omega
    generalize n.natAbs / 4 = x at hx
    unfold F64.signed
    split <;> constructor <;> omega
  rcases Nat.eq_zero_or_pos n.natAbs with h0 | hpos
  · have : n = 0 := Int.natAbs_eq_zero.1 h0
    subst this
    decide
  · have hex1 := roundSig_exact 53 n.natAbs 1 n.natAbs 0 (by norm_num) hpos (by norm_num)
      (lt_of_le_of_lt hsz (by norm_num)) (by simp)
    simp only [F64.ofInt, F64.ofRat, F64.div, Bool.xor_false]
    generalize (roundSig 53 n.natAbs 1).1 = q1 at hex1 ⊢
    generalize (roundSig 53 n.natAbs 1).2 = t1 at hex1 ⊢
    have haq : (0 : ℚ) < n.natAbs := by exact_mod_cast hpos
    have h2t1 : (0 : ℚ) < 2 ^ t1 := zpow_pos (by norm_num) _
    have hq1 : 0 < q1 := by
      rcases Nat.eq_zero_or_pos q1 with h | h
      · subst h; simp at hex1; linarith
      · exact h
    have hq1v : (q1 : ℚ) = n.natAbs * 2 ^ (-t1) := by
      rw [zpow_neg]; field_simp; simpa using hex1
    have hex2 := roundSig_exact 53 q1 (2 ^ 52) n.natAbs (-t1 - 52) (by norm_num) hq1
      (by positivity) (lt_of_le_of_lt hsz (by norm_num)) (by
        have h52 : ((2 ^ 52 : ℕ) : ℚ) = (2 : ℚ) ^ (52 : ℤ) := by norm_num
        rw [hq1v, zpow_sub₀ (by norm_num), h52, mul_div_assoc])
    simp only [show (2 : ℕ) ^ 52 ≠ 0 by norm_num, if_false]
    generalize (roundSig 53 q1 (2 ^ 52)).1 = q2 at hex2 ⊢
    generalize (roundSig 53 q1 (2 ^ 52)).2 = t2 at hex2 ⊢
    have hval : (q2 : ℚ) * 2 ^ (t2 + (t1 + 0 - -50)) = n.natAbs / 4 := by
      rw [zpow_add₀ (by norm_num), ← mul_assoc, hex2, mul_assoc, ← zpow_add₀ (by norm_num)]
      have : (-t1 - 52 + (t1 + 0 - -50)) = -2 := by ring
      rw [this]
      norm_num
      ring
    simp only [F64.toInt]
    rw [trunc_quarter q2 _ n.natAbs hval, if_pos hrange, signed_tdiv]

/-! ## Accuracy of the rounded product -/

/-- The rounded value lies within half a unit in the last place of the exact one,
which is at most `2 ^ (-p)` of it. -/
theorem roundSig_rel (p n d : Nat) (hp : 1 ≤ p) (hn : 0 < n) (hd : 0 < d) :
    (n : ℚ) / d - (n : ℚ) / d / 2 ^ p ≤ ((roundSig p n d).1 : ℚ) * 2 ^ (roundSig p n d).2 ∧
    ((roundSig p n d).1 : ℚ) * 2 ^ (roundSig p n d).2 ≤ (n : ℚ) / d + (n : ℚ) / d / 2 ^ p := by
  obtain ⟨q, f, hq1, hq2, hf0, hf1, hv, hcase⟩ := roundSig_spec p n d hp hn hd
  generalize (roundSig p n d).2 = t at hv ⊢
  generalize (roundSig p n d).1 = q' at hcase ⊢
  have h2t : (0 : ℚ) < 2 ^ t := zpow_pos (by norm_num) t
  have hq1q : (2 : ℚ) ^ (p - 1) ≤ q := by exact_mod_cast hq1
  have hpp : (2 : ℚ) ^ p = 2 * 2 ^ (p - 1) := by
    rw [← pow_succ']; congr 1; omega
  have h2p : (0 : ℚ) < 2 ^ p := by positivity
  -- half a unit is at most the value over `2 ^ p`
  have hu : (2 : ℚ) ^ t / 2 ≤ (n : ℚ) / d / 2 ^ p := by
    rw [hv, le_div_iff₀ h2p, hpp]
    have : (2 : ℚ) ^ (p - 1) * 2 ^ t ≤ (q + f) * 2 ^ t :=
      mul_le_mul_of_nonneg_right (by linarith) h2t.le
    nlinarith
  rw [hv] at hu ⊢
  rcases hcase with ⟨h1, h2⟩ | ⟨h1, h2⟩
  · rw [h1]
    constructor <;> nlinarith
  · rw [h1]; push_cast
    constructor <;> nlinarith

/-- A representable number just below the exact value, within `2 ^ (-(p+1))` of
itself, is the rounded value. -/
theorem roundSig_near (p n d a : Nat) (b : ℤ) (hp : 1 ≤ p) (hn : 0 < n) (hd : 0 < d)
    (ha : a < 2 ^ p) (h1 : (a : ℚ) * 2 ^ b ≤ (n : ℚ) / d)
    (h2 : ((n : ℚ) / d - a * 2 ^ b) * 2 ^ (p + 1) ≤ a * 2 ^ b) :
    ((roundSig p n d).1 : ℚ) * 2 ^ (roundSig p n d).2 = a * 2 ^ b := by
  obtain ⟨q, f, hq1, hq2, hf0, hf1, hv, hcase⟩ := roundSig_spec p n d hp hn hd
  generalize (roundSig p n d).2 = t at hv ⊢
  generalize (roundSig p n d).1 = q' at hcase ⊢
  have h2t : (0 : ℚ) < 2 ^ t := zpow_pos (by norm_num) t
  have hq1q : (2 : ℚ) ^ (p - 1) ≤ q := by exact_mod_cast hq1
  have hq2q : (q : ℚ) + 1 ≤ 2 ^ p := by exact_mod_cast hq2
  have hpp : (2 : ℚ) ^ p = 2 * 2 ^ (p - 1) := by
    rw [← pow_succ']; congr 1; omega
  have hpp1 : (2 : ℚ) ^ (p + 1) = 2 * 2 ^ p := by rw [pow_succ']
  have haq : (a : ℚ) + 1 ≤ 2 ^ p := by exact_mod_cast ha
  have hpos : (0 : ℚ) < 2 ^ (p - 1) := by positivity
  have h2p : (0 : ℚ) < 2 ^ p := by positivity
  rw [hv] at h1 h2
  by_cases htb : t ≤ b
  · obtain ⟨j, hj⟩ : ∃ j : ℕ, b = t + j := ⟨(b - t).toNat, by omega⟩
    have hb2 : (2 : ℚ) ^ b = 2 ^ j * 2 ^ t := by
      rw [hj, zpow_add₀ (by norm_num), zpow_natCast]; ring
    rw [hb2, ← mul_assoc] at h1 h2 ⊢
    have hYc : ((a * 2 ^ j : ℕ) : ℚ) = (a : ℚ) * 2 ^ j := by push_cast; ring
    rw [← hYc] at h1 h2 ⊢
    generalize a * 2 ^ j = Y at h1 h2 ⊢
    have hY : (Y : ℚ) ≤ (q : ℚ) + f := le_of_mul_le_mul_right h1 h2t
    have hYq : Y ≤ q := by
      have : (Y : ℚ) < ((q + 1 : ℕ) : ℚ) := by push_cast; linarith
      have : Y < q + 1 := by exact_mod_cast this
      omega
    have hYq' : (Y : ℚ) ≤ q := by exact_mod_cast hYq
    -- the distance to `Y`, in units, is below one half
    have hd2 : ((q : ℚ) + f - Y) * 2 ^ (p + 1) ≤ Y := by
      have : (((q : ℚ) + f - Y) * 2 ^ (p + 1)) * 2 ^ t ≤ Y * 2 ^ t := by
        calc (((q : ℚ) + f - Y) * 2 ^ (p + 1)) * 2 ^ t
            = (((q : ℚ) + f) * 2 ^ t - Y * 2 ^ t) * 2 ^ (p + 1) := by ring
          _ ≤ Y * 2 ^ t := h2
      exact le_of_mul_le_mul_right this h2t
    have hlt : (q : ℚ) + f - Y < 1 / 2 := by
      rw [hpp1] at hd2
      by_contra hc
      push_neg at hc
      nlinarith
    have hqY : q = Y := by
      by_contra hne
      have : Y + 1 ≤ q := by omega
      have : (Y : ℚ) + 1 ≤ q := by exact_mod_cast this
      linarith
    subst hqY
    rcases hcase with ⟨h3, _⟩ | ⟨_, h4⟩
    · rw [h3]
    · linarith
  · exfalso
    have hb : b ≤ t - 1 := by omega
    have hb1 : (2 : ℚ) ^ b ≤ 2 ^ (t - 1) := zpow_le_zpow_right₀ (by norm_num) hb
    have ht2 : (2 : ℚ) ^ t = 2 * 2 ^ (t - 1) := by
      rw [zpow_sub₀ (by norm_num : (2 : ℚ) ≠ 0)]; field_simp
    have h3 : (0 : ℚ) < 2 ^ (t - 1) := zpow_pos (by norm_num) _
    have h2b : (0 : ℚ) < 2 ^ b := zpow_pos (by norm_num) _
    -- the bound is at least half a unit below the exact value
    have hx : (a : ℚ) * 2 ^ b ≤ (2 ^ p - 1) * 2 ^ (t - 1) := by
      calc (a : ℚ) * 2 ^ b ≤ (2 ^ p - 1) * 2 ^ b :=
            mul_le_mul_of_nonneg_right (by linarith) h2b.le
        _ ≤ (2 ^ p - 1) * 2 ^ (t - 1) :=
            mul_le_mul_of_nonneg_left hb1 (by linarith)
    have hv2 : (2 : ℚ) ^ (p - 1) * (2 * 2 ^ (t - 1)) ≤ ((q : ℚ) + f) * 2 ^ t := by
      rw [ht2]
      exact mul_le_mul_of_nonneg_right (by linarith) (by positivity)
    rw [hpp1] at h2
    have hgap : (2 : ℚ) ^ (t - 1) ≤ ((q : ℚ) + f) * 2 ^ t - a * 2 ^ b := by
      rw [hpp] at hx; nlinarith
    have : (2 : ℚ) ^ (t - 1) * (2 * 2 ^ p) ≤ (2 ^ p - 1) * 2 ^ (t - 1) := by
      calc (2 : ℚ) ^ (t - 1) * (2 * 2 ^ p)
          ≤ (((q : ℚ) + f) * 2 ^ t - a * 2 ^ b) * (2 * 2 ^ p) :=
            mul_le_mul_of_nonneg_right hgap (by positivity)
        _ ≤ a * 2 ^ b := h2
        _ ≤ (2 ^ p - 1) * 2 ^ (t - 1) := hx
    nlinarith

/-- A 24-bit significand scaled to at least `2 ^ 51` has an exponent of at least 28. -/
theorem exp_ge_of_large (m0 : Nat) (D : ℤ) (hm0 : m0 < 2 ^ 24)
    (h : (2 : ℚ) ^ 51 ≤ (m0 : ℚ) * 2 ^ D) : 28 ≤ D := by
  by_contra hc
  have hD : D ≤ 27 := by omega
  have h1 : (2 : ℚ) ^ D ≤ 2 ^ (27 : ℤ) := zpow_le_zpow_right₀ (by norm_num) hD
  have h2 : (0 : ℚ) < 2 ^ D := zpow_pos (by norm_num) _
  have h3 : (m0 : ℚ) + 1 ≤ 2 ^ 24 := by exact_mod_cast hm0
  have h4 : (m0 : ℚ) * 2 ^ D ≤ (2 ^ 24 - 1) * 2 ^ D :=
    mul_le_mul_of_nonneg_right (by linarith) h2.le
  have h5 : ((2 : ℚ) ^ 24 - 1) * 2 ^ D ≤ (2 ^ 24 - 1) * 2 ^ (27 : ℤ) :=
    mul_le_mul_of_nonneg_left h1 (by norm_num)
  norm_num at h h4 h5
  linarith

/-- With an exponent of at least 28, `5 * m0 * 2 ^ D - 4 * m1 * 2 ^ 53` is a multiple of
`2 ^ 28`. -/
theorem gap_multiple (m0 m1 : Nat) (D : ℤ) (hD : 28 ≤ D) :
    ∃ k : ℤ, 5 * ((m0 : ℚ) * 2 ^ D) - 4 * m1 * 2 ^ 53 = k * 2 ^ 28 := by
  obtain ⟨j, hj⟩ : ∃ j : ℕ, D = 28 + j := ⟨(D - 28).toNat, by omega⟩
  refine ⟨5 * m0 * 2 ^ j - m1 * 2 ^ 27, ?_⟩
  rw [hj, zpow_add₀ (by norm_num), zpow_natCast]
  push_cast
  norm_num
  ring

theorem int_small_multiple (k : ℤ) (h1 : -(2 : ℚ) ^ 27 < k * 2 ^ 28)
    (h2 : (k : ℚ) * 2 ^ 28 < 2 ^ 27) : k = 0 := by
  have h3 : -1 < k := by
    have : (-1 : ℚ) < k := by norm_num at h1 ⊢; linarith
    exact_mod_cast this
  have h4 : k < 1 := by
    have : (k : ℚ) < 1 := by norm_num at h2 ⊢; linarith
    exact_mod_cast this
  omega

/-- The comparison of a non-negative `float` with the rounded product
`minDistRatio * second`, both scaled by `2 ^ (53 - e)`: it agrees with the exact
comparison against four fifths of `second`. -/
theorem ratio_exact_pos (m0 m1 : Nat) (D : ℤ) (hm0 : m0 < 2 ^ 24) (hm1 : m1 < 2 ^ 24)
    (hpos : 0 < m1) :
    (m0 : ℚ) * 2 ^ D < ((roundSig 53 (7205759403792794 * m1) 1).1 : ℚ) *
        2 ^ (roundSig 53 (7205759403792794 * m1) 1).2 ↔
      5 * ((m0 : ℚ) * 2 ^ D) < 4 * m1 * 2 ^ 53 := by
  have hV : 0 < 7205759403792794 * m1 := Nat.mul_pos (by norm_num) hpos
  obtain ⟨hlo, hhi⟩ := roundSig_rel 53 (7205759403792794 * m1) 1 (by norm_num) hV (by norm_num)
  have hnear := roundSig_near 53 (7205759403792794 * m1) 1 m0 D (by norm_num) hV (by norm_num)
    (lt_trans hm0 (by norm_num))
  generalize ((roundSig 53 (7205759403792794 * m1) 1).1 : ℚ) *
    2 ^ (roundSig 53 (7205759403792794 * m1) 1).2 = w at hlo hhi hnear ⊢
  generalize hz : (m0 : ℚ) * 2 ^ D = z at hnear ⊢
  have hm1a : (1 : ℚ) ≤ m1 := by exact_mod_cast hpos
  have hm1b : (m1 : ℚ) + 1 ≤ 2 ^ 24 := by exact_mod_cast hm1
  push_cast at hlo hhi hnear
  norm_num at hlo hhi hnear hm1b ⊢
  constructor
  · intro hlt
    by_contra hc
    push_neg at hc
    have hbig : (2 : ℚ) ^ 51 ≤ (m0 : ℚ) * 2 ^ D := by rw [hz]; norm_num; linarith
    obtain ⟨k, hk⟩ := gap_multiple m0 m1 D (exp_ge_of_large m0 D hm0 hbig)
    rw [hz] at hk
    have hk0 : k = 0 := by
      apply int_small_multiple k
      · rw [← hk]; norm_num; linarith
      · rw [← hk]; norm_num; linarith
    rw [hk0] at hk
    norm_num at hk
    have hw : w = z := hnear (by linarith) (by linarith)
    linarith
  · intro hlt
    by_contra hc
    push_neg at hc
    have hbig : (2 : ℚ) ^ 51 ≤ (m0 : ℚ) * 2 ^ D := by rw [hz]; norm_num; linarith
    obtain ⟨k, hk⟩ := gap_multiple m0 m1 D (exp_ge_of_large m0 D hm0 hbig)
    rw [hz] at hk
    have hk0 : k = 0 := by
      apply int_small_multiple k
      · rw [← hk]; norm_num; linarith
      · rw [← hk]; norm_num; linarith
    rw [hk0] at hk
    norm_num at hk
    linarith

/-- The mirrored comparison, for two negative `float`s. -/
theorem ratio_exact_neg (m0 m1 : Nat) (D : ℤ) (hm0 : m0 < 2 ^ 24) (hm1 : m1 < 2 ^ 24)
    (hpos : 0 < m1) :
    ((roundSig 53 (7205759403792794 * m1) 1).1 : ℚ) *
        2 ^ (roundSig 53 (7205759403792794 * m1) 1).2 < (m0 : ℚ) * 2 ^ D ↔
      4 * m1 * 2 ^ 53 < 5 * ((m0 : ℚ) * 2 ^ D) := by
  have hV : 0 < 7205759403792794 * m1 := Nat.mul_pos (by norm_num) hpos
  obtain ⟨hlo, hhi⟩ := roundSig_rel 53 (7205759403792794 * m1) 1 (by norm_num) hV (by norm_num)
  have hge := roundSig_ge_repr 53 (7205759403792794 * m1) 1 m0 D (by norm_num) hV
    (by norm_num) (lt_trans hm0 (by norm_num))
  generalize ((roundSig 53 (7205759403792794 * m1) 1).1 : ℚ) *
    2 ^ (roundSig 53 (7205759403792794 * m1) 1).2 = w at hlo hhi hge ⊢
  generalize hz : (m0 : ℚ) * 2 ^ D = z at hge ⊢
  have hm1a : (1 : ℚ) ≤ m1 := by exact_mod_cast hpos
  have hm1b : (m1 : ℚ) + 1 ≤ 2 ^ 24 := by exact_mod_cast hm1
  push_cast at hlo hhi hge
  norm_num at hlo hhi hge hm1b ⊢
  constructor
  · intro hlt
    by_contra hc
    push_neg at hc
    have := hge (by linarith)
    linarith
  · intro hlt
    by_contra hc
    push_neg at hc
    have hbig : (2 : ℚ) ^ 51 ≤ (m0 : ℚ) * 2 ^ D := by rw [hz]; norm_num; linarith
    obtain ⟨k, hk⟩ := gap_multiple m0 m1 D (exp_ge_of_large m0 D hm0 hbig)
    rw [hz] at hk
    have hk0 : k = 0 := by
      apply int_small_multiple k
      · rw [← hk]; norm_num; linarith
      · rw [← hk]; norm_num; linarith
    rw [hk0] at hk
    norm_num at hk
    linarith

theorem scale_split (E0 E1 : ℤ) :
    (2 : ℚ) ^ E0 = 2 ^ (E0 - E1 + 53) * 2 ^ (E1 - 53) := by
  rw [← zpow_add₀ (by norm_num)]; congr 1; ring

theorem scale_split_sum (t E1 : ℤ) :
    (2 : ℚ) ^ (t + (-53 + E1)) = 2 ^ t * 2 ^ (E1 - 53) := by
  rw [← zpow_add₀ (by norm_num)]; congr 1; ring

theorem scale_split_const (E1 : ℤ) : (2 : ℚ) ^ E1 = 2 ^ (53 : ℕ) * 2 ^ (E1 - 53) := by
  rw [← zpow_natCast, ← zpow_add₀ (by norm_num)]; congr 1; push_cast; ring

theorem mag_pos (m0 m1 : Nat) (E0 E1 : ℤ) (hm0 : m0 < 2 ^ 24) (hm1 : m1 < 2 ^ 24)
    (hpos : 0 < m1) :
    (m0 : ℚ) * 2 ^ E0 < ((roundSig 53 (7205759403792794 * m1) 1).1 : ℚ) *
        2 ^ ((roundSig 53 (7205759403792794 * m1) 1).2 + (-53 + E1)) ↔
      5 * ((m0 : ℚ) * 2 ^ E0) < 4 * ((m1 : ℚ) * 2 ^ E1) := by
  have hc : (0 : ℚ) < 2 ^ (E1 - 53) := zpow_pos (by norm_num) _
  have h := ratio_exact_pos m0 m1 (E0 - E1 + 53) hm0 hm1 hpos
  have e0 : (m0 : ℚ) * 2 ^ E0 = ((m0 : ℚ) * 2 ^ (E0 - E1 + 53)) * 2 ^ (E1 - 53) := by
    rw [mul_assoc, ← scale_split]
  have ew : ((roundSig 53 (7205759403792794 * m1) 1).1 : ℚ) *
        2 ^ ((roundSig 53 (7205759403792794 * m1) 1).2 + (-53 + E1))
      = (((roundSig 53 (7205759403792794 * m1) 1).1 : ℚ) *
        2 ^ (roundSig 53 (7205759403792794 * m1) 1).2) * 2 ^ (E1 - 53) := by
    rw [mul_assoc, ← scale_split_sum]
  have e1 : 4 * ((m1 : ℚ) * 2 ^ E1) = (4 * (m1 : ℚ) * 2 ^ 53) * 2 ^ (E1 - 53) := by
    rw [scale_split_const E1]; ring
  rw [e0, ew, e1, ← mul_assoc 5 _ (2 ^ (E1 - 53)), mul_lt_mul_right hc, mul_lt_mul_right hc]
  exact h

theorem mag_neg (m0 m1 : Nat) (E0 E1 : ℤ) (hm0 : m0 < 2 ^ 24) (hm1 : m1 < 2 ^ 24)
    (hpos : 0 < m1) :
    ((roundSig 53 (7205759403792794 * m1) 1).1 : ℚ) *
        2 ^ ((roundSig 53 (7205759403792794 * m1) 1).2 + (-53 + E1)) < (m0 : ℚ) * 2 ^ E0 ↔
      4 * ((m1 : ℚ) * 2 ^ E1) < 5 * ((m0 : ℚ) * 2 ^ E0) := by
  have hc : (0 : ℚ) < 2 ^ (E1 - 53) := zpow_pos (by norm_num) _
  have h := ratio_exact_neg m0 m1 (E0 - E1 + 53) hm0 hm1 hpos
  have e0 : (m0 : ℚ) * 2 ^ E0 = ((m0 : ℚ) * 2 ^ (E0 - E1 + 53)) * 2 ^ (E1 - 53) := by
    rw [mul_assoc, ← scale_split]
  have ew : ((roundSig 53 (7205759403792794 * m1) 1).1 : ℚ) *
        2 ^ ((roundSig 53 (7205759403792794 * m1) 1).2 + (-53 + E1))
      = (((roundSig 53 (7205759403792794 * m1) 1).1 : ℚ) *
        2 ^ (roundSig 53 (7205759403792794 * m1) 1).2) * 2 ^ (E1 - 53) := by
    rw [mul_assoc, ← scale_split_sum]
  have e1 : 4 * ((m1 : ℚ) * 2 ^ E1) = (4 * (m1 : ℚ) * 2 ^ 53) * 2 ^ (E1 - 53) := by
    rw [scale_split_const E1]; ring
  rw [e0, ew, e1, ← mul_assoc 5 _ (2 ^ (E1 - 53)), mul_lt_mul_right hc, mul_lt_mul_right hc]
  exact h

theorem rounded_pos (m1 : Nat) (E : ℤ) (hpos : 0 < m1) :
    (0 : ℚ) < ((roundSig 53 (7205759403792794 * m1) 1).1 : ℚ) *
        2 ^ ((roundSig 53 (7205759403792794 * m1) 1).2 + E) := by
  have hV : 0 < 7205759403792794 * m1 := Nat.mul_pos (by norm_num) hpos
  obtain ⟨hlo, _⟩ := roundSig_rel 53 (7205759403792794 * m1) 1 (by norm_num) hV (by norm_num)
  have hm1a : (1 : ℚ) ≤ m1 := by exact_mod_cast hpos
  rw [zpow_add₀ (by norm_num), ← mul_assoc]
  apply mul_pos _ (zpow_pos (by norm_num) _)
  push_cast at hlo
  norm_num at hlo
  linarith

/-- The `double` comparison of line 49 decides `best < 0.8 * second` exactly. -/
theorem ratioTest_eq_exact (best second : DMatch) :
    ratioTest best second = ratioTestExact best.distance second.distance := by
  unfold ratioTest
  rw [minDistRatio_eq]
  cases hb : second.distance with
  | nan => cases best.distance <;> simp [F64.ofF32, F64.mul, F64.lt, ratioTestExact]
  | inf s1 => cases best.distance <;> simp [F64.ofF32, F64.mul, F64.lt, ratioTestExact]
  | fin s1 m1 e1 =>
    cases ha : best.distance with
    | nan => simp [F64.ofF32, F64.mul, F64.lt, ratioTestExact, F64.ofRat]
    | inf s0 => simp [F64.ofF32, F64.mul, F64.lt, ratioTestExact, F64.ofRat]
    | fin s0 m0 e0 =>
      simp only [F64.ofF32, F64.mul, F64.ofRat, F64.lt, ratioTestExact, Bool.false_xor]
      rw [Bool.eq_iff_iff, finLt_iff, decide_eq_true_iff]
      have h45 : ∀ x y : ℚ, x < 4 / 5 * y ↔ 5 * x < 4 * y := by
        intro x y; constructor <;> intro h <;> linarith
      rw [h45]
      generalize (e0.val : ℤ) - 149 = E0
      generalize (e1.val : ℤ) - 149 = E1
      have hm0 := m0.isLt
      have hm1 := m1.isLt
      generalize m0.val = a0 at hm0 ⊢
      generalize m1.val = a1 at hm1 ⊢
      have h2E0 : (0 : ℚ) < 2 ^ E0 := zpow_pos (by norm_num) _
      have h2E1 : (0 : ℚ) < 2 ^ E1 := zpow_pos (by norm_num) _
      have ha0 : (0 : ℚ) ≤ (a0 : ℚ) * 2 ^ E0 := by positivity
      have ha1 : (0 : ℚ) ≤ (a1 : ℚ) * 2 ^ E1 := by positivity
      rcases Nat.eq_zero_or_pos a1 with h0 | hpos
      · subst h0
        simp only [Nat.mul_zero, roundSig_fst_zero, finVal_zero]
        constructor <;> intro h <;> linarith
      · have hw := rounded_pos a1 (-53 + E1) hpos
        have hp := mag_pos a0 a1 E0 E1 hm0 hm1 hpos
        have hn := mag_neg a0 a1 E0 E1 hm0 hm1 hpos
        have ha1' : (0 : ℚ) < (a1 : ℚ) * 2 ^ E1 := by
          have : (0 : ℚ) < a1 := by exact_mod_cast hpos
          positivity
        unfold F64.finVal
        simp only [signed_cast]
        generalize ((roundSig 53 (7205759403792794 * a1) 1).1 : ℚ) = Q at hw hp hn ⊢
        generalize (2 : ℚ) ^ ((roundSig 53 (7205759403792794 * a1) 1).2 + (-53 + E1)) = c
          at hw hp hn ⊢
        cases s0 <;> cases s1 <;>
          simp only [if_true, if_false, Bool.false_eq_true, neg_mul, mul_neg]
        · exact hp
        · constructor <;> intro h <;> linarith
        · constructor <;> intro h <;> linarith
        · rw [neg_lt_neg_iff, neg_lt_neg_iff]
          exact hn

/-! ## The ratio-test loop -/

theorem ratioLoop_ok (K : List (List DMatch)) (M : List DMatch)
    (hK : ∀ e ∈ K, 2 ≤ e.length) : ratioLoop K M = .ok (M ++ K.filterMap ratioAccepted) := by
  induction K generalizing M with
  | nil => simp [ratioLoop]
  | cons e K ih =>
    have he : 2 ≤ e.length := hK e (List.mem_cons_self _ _)
    have hK2 : ∀ e2 ∈ K, 2 ≤ e2.length := fun e2 h2 => hK e2 (List.mem_cons_of_mem _ h2)
    match e, he with
    | best :: second :: rest, _ =>
      by_cases ht : ratioTest best second
      · simp [ratioLoop, ratioAccepted, ht, ih _ hK2, List.filterMap_cons]
      · simp [ratioLoop, ratioAccepted, ht, ih _ hK2, List.filterMap_cons]

theorem ratioLoop_fault (K : List (List DMatch)) (M : List DMatch) :
    ratioLoop K M = .error .outOfRange ↔ ∃ e ∈ K, e.length < 2 := by
  induction K generalizing M with
  | nil => simp [ratioLoop]
  | cons e K ih =>
    match e with
    | [] => simp [ratioLoop]
    | [a] => simp [ratioLoop]
    | best :: second :: rest =>
      by_cases ht : ratioTest best second
      · simp [ratioLoop, ht, ih]
      · simp [ratioLoop, ht, ih]

theorem ratioLoop_cases (K : List (List DMatch)) (M : List DMatch) :
    ratioLoop K M = .error .outOfRange ∨ ∃ R, ratioLoop K M = .ok R := by
  by_cases h : ∀ e ∈ K, 2 ≤ e.length
  · exact Or.inr ⟨_, ratioLoop_ok K M h⟩
  · left
    rw [ratioLoop_fault]
    push_neg at h
    obtain ⟨e, he, h2⟩ := h
    exact ⟨e, he, h2⟩

/-- With a configured matcher, the k-nearest-neighbour branch runs the ratio loop
on the library result. -/
theorem matchDescriptors_knn (cv : OpenCV) (kPtsSource kPtsRef : List KeyPoint)
    (descSource descRef : Mat) (M : List DMatch) (descriptorType matcherType : String)
    (matcher : DescriptorMatcher) (src ref : Mat)
    (hcfg : configureMatcher cv descSource descRef descriptorType matcherType
      = (some matcher, src, ref)) :
    (matchDescriptors cv kPtsSource kPtsRef descSource descRef M descriptorType matcherType
        "SEL_KNN").map (fun r => r.matches_)
      = ratioLoop (cv.knnMatch matcher src ref 2) M := by
  unfold matchDescriptors
  rw [hcfg]
  have h1 : compare "SEL_KNN" "SEL_NN" ≠ 0 := by decide
  have h2 : compare "SEL_KNN" "SEL_KNN" = 0 := by decide
  simp only [h1, h2, if_true, if_false]
  cases ratioLoop (cv.knnMatch matcher src ref 2) M <;> rfl

theorem ratioAccepted_eq_exact : ratioAccepted = ratioAcceptedExact := by
  funext e
  match e with
  | [] => rfl
  | [_] => rfl
  | best :: second :: rest =>
    simp only [ratioAccepted, ratioAcceptedExact, ratioTest_eq_exact]

/-! ## The claims -/

/-- C1: under `"SEL_KNN"`, with a configured matcher and a library result `K` whose
entries all hold at least two candidates, `matches` ends as its prior content followed,
in the order of `K`, by the best candidate of exactly the entries whose best distance is
strictly less than 0.8 times the second-best distance (`ratioTestExact`, exact rational
arithmetic); nothing else is added, removed or reordered. -/
theorem C1_knn_appends_ratio_filtered (cv : OpenCV) (kPtsSource kPtsRef : List KeyPoint)
    (descSource descRef : Mat) (M : List DMatch) (descriptorType matcherType : String)
    (matcher : DescriptorMatcher) (src ref : Mat)
    (hcfg : configureMatcher cv descSource descRef descriptorType matcherType
      = (some matcher, src, ref))
    (hK : ∀ e ∈ cv.knnMatch matcher src ref 2, 2 ≤ e.length) :
    (matchDescriptors cv kPtsSource kPtsRef descSource descRef M descriptorType matcherType
        "SEL_KNN").map (fun r => r.matches_)
      = .ok (M ++ (cv.knnMatch matcher src ref 2).filterMap ratioAcceptedExact) := by
  rw [matchDescriptors_knn cv kPtsSource kPtsRef descSource descRef M descriptorType
    matcherType matcher src ref hcfg, ← ratioAccepted_eq_exact]
  exact ratioLoop_ok _ M hK

/-- A run of C1 on the sample library: of three entries the first and third pass. -/
theorem C1_witness :
    (∀ e ∈ sampleCV.knnMatch (.BFMatcher .NORM_HAMMING false) sampleMat sampleMat 2,
        2 ≤ e.length) ∧
    (matchDescriptors sampleCV [] [] sampleMat sampleMat [sampleMatch 9 9] "DES_BINARY"
        "MAT_BF" "SEL_KNN").map (fun r => r.matches_)
      = .ok [sampleMatch 9 9, sampleMatch 0 1, sampleMatch 2 0] :=
  ⟨by decide, (C1_knn_appends_ratio_filtered sampleCV [] [] sampleMat sampleMat
    [sampleMatch 9 9] "DES_BINARY" "MAT_BF" (.BFMatcher .NORM_HAMMING false) sampleMat sampleMat
    (by decide) (by decide)).trans (by rw [← ratioAccepted_eq_exact]; decide)⟩

/-- C2 at a failing input: with a `CV_32F` source and a `CV_8U` reference matrix,
`"MAT_FLANN"` converts nothing, and the FLANN matcher is invoked on the reference
matrix still of type `CV_8U`. -/
theorem C2_flann_reference_left_unconverted (cv : OpenCV) (M : List DMatch)
    (descriptorType : String) :
    matchDescriptors cv [] [] { rows := 1, cols := 1, type := CV_32F, data := [] }
        { rows := 1, cols := 1, type := CV_8U, data := [] } M descriptorType "MAT_FLANN" "SEL_NN"
      = .ok { descSource := { rows := 1, cols := 1, type := CV_32F, data := [] },
              descRef := { rows := 1, cols := 1, type := CV_8U, data := [] },
              matches_ := cv.match_ .FLANNBASED
                { rows := 1, cols := 1, type := CV_32F, data := [] }
                { rows := 1, cols := 1, type := CV_8U, data := [] } M,
              calls := [.match_ .FLANNBASED
                { rows := 1, cols := 1, type := CV_32F, data := [] }
                { rows := 1, cols := 1, type := CV_8U, data := [] }] }
    ∧ CV_8U ≠ CV_32F := by
  constructor
  · have h1 : compare "MAT_FLANN" "MAT_BF" ≠ 0 := by decide
    have h2 : compare "MAT_FLANN" "MAT_FLANN" = 0 := by decide
    have h3 : compare "SEL_NN" "SEL_NN" = 0 := by decide
    simp [matchDescriptors, configureMatcher, h1, h2, h3]
  · decide

/-- C3: with `"MAT_BF"`, `matchDescriptors` creates a brute-force matcher with
cross-checking off, using the Hamming norm when `descriptorType` is `"DES_BINARY"` and
the L2 norm for every other `descriptorType`, and leaves the descriptor matrices as they
are; under `"SEL_NN"` its `match` call and under `"SEL_KNN"` its `knnMatch` call go
through exactly that matcher. -/
theorem C3_brute_force_norm (cv : OpenCV) (kPtsSource kPtsRef : List KeyPoint)
    (descSource descRef : Mat) (M : List DMatch) (descriptorType : String) :
    configureMatcher cv descSource descRef descriptorType "MAT_BF"
      = (some (.BFMatcher
          (if descriptorType = "DES_BINARY" then .NORM_HAMMING else .NORM_L2) false),
        descSource, descRef) ∧
    matchDescriptors cv kPtsSource kPtsRef descSource descRef M descriptorType "MAT_BF"
        "SEL_NN"
      = .ok { descSource := descSource, descRef := descRef,
              matches_ := cv.match_ (.BFMatcher
                (if descriptorType = "DES_BINARY" then .NORM_HAMMING else .NORM_L2) false)
                descSource descRef M,
              calls := [.match_ (.BFMatcher
                (if descriptorType = "DES_BINARY" then .NORM_HAMMING else .NORM_L2) false)
                descSource descRef] } ∧
    matchDescriptors cv kPtsSource kPtsRef descSource descRef M descriptorType "MAT_BF"
        "SEL_KNN"
      = (ratioLoop (cv.knnMatch (.BFMatcher
            (if descriptorType = "DES_BINARY" then .NORM_HAMMING else .NORM_L2) false)
            descSource descRef 2) M).map (fun matches_ =>
          { descSource := descSource, descRef := descRef, matches_ := matches_,
            calls := [.knnMatch (.BFMatcher
              (if descriptorType = "DES_BINARY" then .NORM_HAMMING else .NORM_L2) false)
              descSource descRef 2] }) := by
  have h1 : compare "MAT_BF" "MAT_BF" = 0 := by decide
  have hcfg : configureMatcher cv descSource descRef descriptorType "MAT_BF"
      = (some (.BFMatcher
          (if descriptorType = "DES_BINARY" then .NORM_HAMMING else .NORM_L2) false),
        descSource, descRef) := by
    simp only [configureMatcher, h1, if_true, compare_eq_zero_iff]
  have hnn : compare "SEL_NN" "SEL_NN" = 0 := by decide
  have hk1 : compare "SEL_KNN" "SEL_NN" ≠ 0 := by decide
  have hk2 : compare "SEL_KNN" "SEL_KNN" = 0 := by decide
  refine ⟨hcfg, ?_, ?_⟩
  · unfold matchDescriptors
    rw [hcfg]
    simp only [hnn, if_true]
  · unfold matchDescriptors
    rw [hcfg]
    simp only [hk1, hk2, if_true, if_false]

theorem ratioAccepted_sound (e : List DMatch) (x : DMatch)
    (hnn : ∀ c ∈ e, F32.le F32.zero c.distance = true) (h : ratioAccepted e = some x) :
    ∃ second rest, e = x :: second :: rest ∧ F32.lt x.distance second.distance = true ∧
      F32.lt F32.zero second.distance = true := by
  match e with
  | [] => simp [ratioAccepted] at h
  | [a] => simp [ratioAccepted] at h
  | best :: second :: rest =>
    simp only [ratioAccepted] at h
    by_cases ht : ratioTest best second = true
    · rw [if_pos ht] at h
      have hx : best = x := Option.some.inj h
      subst hx
      have h0 := hnn best (by simp)
      have h1 := hnn second (by simp)
      obtain ⟨ha, hb⟩ := ratio_sound best.distance second.distance h0 h1 ht
      exact ⟨second, rest, rfl, ha, hb⟩
    · rw [if_neg ht] at h
      cases h

theorem lt_irrefl_F32 (d : F32) : F32.lt d d = false := by
  cases d with
  | nan => rfl
  | inf s => cases s <;> rfl
  | fin s m e =>
    have := finLt_iff s m.val ((e.val : Int) - 149) s m.val ((e.val : Int) - 149)
    simp only [lt_self_iff_false, iff_false, Bool.not_eq_true] at this
    simpa [F32.lt, F64.lt, F64.ofF32] using this

/-- C4: for a library result whose distances are all non-negative and whose entries
each hold at least two candidates, the matches appended under `"SEL_KNN"` are the
entries passing the test of line 49, and each of them is the best candidate of an entry
whose best distance is strictly below its second-best distance, the latter being
strictly positive; an entry with two equal distances fails the test and adds nothing. -/
theorem C4_accepted_is_strictly_closer (cv : OpenCV) (kPtsSource kPtsRef : List KeyPoint)
    (descSource descRef : Mat) (M : List DMatch) (descriptorType matcherType : String)
    (matcher : DescriptorMatcher) (src ref : Mat)
    (hcfg : configureMatcher cv descSource descRef descriptorType matcherType
      = (some matcher, src, ref))
    (hK : ∀ e ∈ cv.knnMatch matcher src ref 2, 2 ≤ e.length)
    (hnn : ∀ e ∈ cv.knnMatch matcher src ref 2, ∀ c ∈ e, F32.le F32.zero c.distance = true) :
    (matchDescriptors cv kPtsSource kPtsRef descSource descRef M descriptorType matcherType
        "SEL_KNN").map (fun r => r.matches_)
      = .ok (M ++ (cv.knnMatch matcher src ref 2).filterMap ratioAccepted) ∧
    (∀ x ∈ (cv.knnMatch matcher src ref 2).filterMap ratioAccepted,
        ∃ e ∈ cv.knnMatch matcher src ref 2, ∃ second rest,
          e = x :: second :: rest ∧ F32.lt x.distance second.distance = true ∧
          F32.lt F32.zero second.distance = true) ∧
    (∀ e ∈ cv.knnMatch matcher src ref 2, ∀ best second rest,
        e = best :: second :: rest → best.distance = second.distance →
        ratioTest best second = false ∧ ratioAccepted e = none) := by
  refine ⟨?_, ?_, ?_⟩
  · rw [matchDescriptors_knn cv kPtsSource kPtsRef descSource descRef M descriptorType
      matcherType matcher src ref hcfg]
    exact ratioLoop_ok _ M hK
  · intro x hx
    obtain ⟨e, he, hacc⟩ := List.mem_filterMap.1 hx
    obtain ⟨second, rest, h1, h2, h3⟩ := ratioAccepted_sound e x (hnn e he) hacc
    exact ⟨e, he, second, rest, h1, h2, h3⟩
  · intro e he best second rest hform heq
    have hf : ratioTest best second = false := by
      by_contra hne
      have ht : ratioTest best second = true := by simpa using hne
      have h0 := hnn e he best (by simp [hform])
      have h1 := hnn e he second (by simp [hform])
      have := (ratio_sound best.distance second.distance h0 h1 ht).1
      rw [heq, lt_irrefl_F32] at this
      cases this
    refine ⟨hf, ?_⟩
    rw [hform]
    simp [ratioAccepted, hf]

/-- A run of C4 on the sample library, through the FLANN branch with conversion. -/
theorem C4_witness :
    (∀ e ∈ sampleCV.knnMatch .FLANNBASED sampleMatF sampleMatF 2, 2 ≤ e.length) ∧
    (∀ e ∈ sampleCV.knnMatch .FLANNBASED sampleMatF sampleMatF 2, ∀ c ∈ e,
        F32.le F32.zero c.distance = true) ∧
    (matchDescriptors sampleCV [] [] sampleMat sampleMat []
        "DES_HOG" "MAT_FLANN" "SEL_KNN").map (fun r => r.matches_)
      = .ok ([] ++ (sampleCV.knnMatch .FLANNBASED sampleMatF sampleMatF 2).filterMap
          ratioAccepted) ∧
    (∀ x ∈ (sampleCV.knnMatch .FLANNBASED sampleMatF sampleMatF 2).filterMap ratioAccepted,
        ∃ e ∈ sampleCV.knnMatch .FLANNBASED sampleMatF sampleMatF 2, ∃ second rest,
          e = x :: second :: rest ∧ F32.lt x.distance second.distance = true ∧
          F32.lt F32.zero second.distance = true) ∧
    (∀ e ∈ sampleCV.knnMatch .FLANNBASED sampleMatF sampleMatF 2, ∀ best second rest,
        e = best :: second :: rest → best.distance = second.distance →
        ratioTest best second = false ∧ ratioAccepted e = none) :=
  ⟨by decide, by decide,
    C4_accepted_is_strictly_closer sampleCV [] [] sampleMat sampleMat []
      "DES_HOG" "MAT_FLANN" .FLANNBASED sampleMatF sampleMatF (by decide) (by decide)
      (by decide)⟩

/-- C5: `descKeypoints` selects an extractor exactly for the six names `"BRISK"`,
`"SIFT"`, `"ORB"`, `"AKAZE"`, `"FREAK"`, `"BRIEF"`, each selecting the extractor of
that name; for a selected extractor the result is that of `compute` on it, and for
every other string `compute` is called through a null pointer. -/
theorem C5_extractor_selection (cv : OpenCV) (keypoints : List KeyPoint)
    (img descriptors : Mat) (descriptorType : String) :
    ((selectExtractor descriptorType).isSome = true ↔
        descriptorType ∈ ["BRISK", "SIFT", "ORB", "AKAZE", "FREAK", "BRIEF"]) ∧
    selectExtractor "BRISK" = some (.BRISK 30 3 (F32.ofInt 1)) ∧
    selectExtractor "SIFT" = some .SIFT ∧
    selectExtractor "ORB" = some (.ORB 1000) ∧
    selectExtractor "AKAZE" = some .AKAZE ∧
    selectExtractor "FREAK" = some .FREAK ∧
    selectExtractor "BRIEF" = some .BRIEF ∧
    (descKeypoints cv keypoints img descriptors descriptorType = .error .nullPointer ↔
        descriptorType ∉ ["BRISK", "SIFT", "ORB", "AKAZE", "FREAK", "BRIEF"]) ∧
    (∀ extractor, selectExtractor descriptorType = some extractor →
        descKeypoints cv keypoints img descriptors descriptorType
          = .ok (cv.compute extractor img keypoints descriptors)) := by
  refine ⟨?_, by decide, by decide, by decide, by decide, by decide, by decide, ?_, ?_⟩
  · simp only [selectExtractor, compare_eq_zero_iff]
    split_ifs <;> simp_all
  · simp only [descKeypoints, selectExtractor, compare_eq_zero_iff]
    split_ifs <;> simp_all
  · intro extractor h
    simp only [descKeypoints, h]

/-- C6: `detKeypointsModern` selects a detector exactly for the five names `"FAST"`,
`"BRISK"`, `"SIFT"`, `"ORB"`, `"AKAZE"`, each selecting the detector of that name; for
a selected detector the result is that of `detect` on it, and for every other string,
the spellings of Shi-Tomasi and Harris included, `detect` is called through a null
pointer. -/
theorem C6_detector_selection (cv : OpenCV) (keypoints : List KeyPoint) (img : Mat)
    (detectorType : String) (bVis : Bool) :
    ((selectDetector detectorType).isSome = true ↔
        detectorType ∈ ["FAST", "BRISK", "SIFT", "ORB", "AKAZE"]) ∧
    selectDetector "FAST" = some (.FAST 30 true .TYPE_9_16) ∧
    selectDetector "BRISK" = some .BRISK ∧
    selectDetector "SIFT" = some .SIFT ∧
    selectDetector "ORB" = some (.ORB 1000) ∧
    selectDetector "AKAZE" = some .AKAZE ∧
    (detKeypointsModern cv keypoints img detectorType bVis = .error .nullPointer ↔
        detectorType ∉ ["FAST", "BRISK", "SIFT", "ORB", "AKAZE"]) ∧
    (∀ detector, selectDetector detectorType = some detector →
        detKeypointsModern cv keypoints img detectorType bVis
          = .ok (cv.detect detector img keypoints, bVis)) ∧
    detKeypointsModern cv keypoints img "SHITOMASI" bVis = .error .nullPointer ∧
    detKeypointsModern cv keypoints img "HARRIS" bVis = .error .nullPointer := by
  refine ⟨?_, by decide, by decide, by decide, by decide, by decide, ?_, ?_, ?_, ?_⟩
  · simp only [selectDetector, compare_eq_zero_iff]
    split_ifs <;> simp_all
  · simp only [detKeypointsModern, selectDetector, compare_eq_zero_iff]
    split_ifs <;> simp_all
  · intro detector h
    simp only [detKeypointsModern, h]
  · have h : selectDetector "SHITOMASI" = none := by decide
    simp only [detKeypointsModern, h]
  · have h : selectDetector "HARRIS" = none := by decide
    simp only [detKeypointsModern, h]

theorem configureMatcher_fst_none_iff (cv : OpenCV) (descSource descRef : Mat)
    (descriptorType matcherType : String) :
    (configureMatcher cv descSource descRef descriptorType matcherType).1 = none ↔
      (matcherType ≠ "MAT_BF" ∧ matcherType ≠ "MAT_FLANN") := by
  simp only [configureMatcher, compare_eq_zero_iff]
  split_ifs <;> simp_all

theorem map_ratioLoop_ne_null {α : Type} (f : List DMatch → α) (K : List (List DMatch))
    (M : List DMatch) : Except.map f (ratioLoop K M) ≠ .error .nullPointer := by
  rcases ratioLoop_cases K M with h | ⟨R, h⟩ <;> simp [h, Except.map]

/-- C7: `matchDescriptors` calls through a null matcher exactly when `matcherType` is
neither `"MAT_BF"` nor `"MAT_FLANN"` and `selectorType` is `"SEL_NN"` or `"SEL_KNN"`;
`"MAT_BF"` configures a brute-force matcher and `"MAT_FLANN"` the FLANN-based one; and
it returns without any matcher call, `matches` untouched, exactly when `selectorType`
is neither `"SEL_NN"` nor `"SEL_KNN"`. -/
theorem C7_null_matcher (cv : OpenCV) (kPtsSource kPtsRef : List KeyPoint)
    (descSource descRef : Mat) (M : List DMatch)
    (descriptorType matcherType selectorType : String) :
    (matchDescriptors cv kPtsSource kPtsRef descSource descRef M descriptorType matcherType
          selectorType = .error .nullPointer ↔
        (matcherType ≠ "MAT_BF" ∧ matcherType ≠ "MAT_FLANN") ∧
          (selectorType = "SEL_NN" ∨ selectorType = "SEL_KNN")) ∧
    (∃ normType crossCheck,
        (configureMatcher cv descSource descRef descriptorType "MAT_BF").1
          = some (.BFMatcher normType crossCheck)) ∧
    (configureMatcher cv descSource descRef descriptorType "MAT_FLANN").1
        = some .FLANNBASED ∧
    ((∃ r, matchDescriptors cv kPtsSource kPtsRef descSource descRef M descriptorType
          matcherType selectorType = .ok r ∧ r.calls = [] ∧ r.matches_ = M) ↔
        (selectorType ≠ "SEL_NN" ∧ selectorType ≠ "SEL_KNN")) := by
  have hbf : compare "MAT_BF" "MAT_BF" = 0 := by decide
  have hfl1 : compare "MAT_FLANN" "MAT_BF" ≠ 0 := by decide
  have hfl2 : compare "MAT_FLANN" "MAT_FLANN" = 0 := by decide
  have hnone := configureMatcher_fst_none_iff cv descSource descRef descriptorType matcherType
  refine ⟨?_, ?_, ?_, ?_⟩
  · rw [← hnone]
    unfold matchDescriptors
    rcases configureMatcher cv descSource descRef descriptorType matcherType with ⟨mo, s, r⟩
    simp only [compare_eq_zero_iff]
    by_cases h1 : selectorType = "SEL_NN"
    · cases mo <;> simp [h1]
    · by_cases h2 : selectorType = "SEL_KNN"
      · cases mo with
        | none => simp [h1, h2]
        | some m => simpa [h1, h2] using map_ratioLoop_ne_null _ _ _
      · simp [h1, h2]
  · exact ⟨if compare descriptorType "DES_BINARY" = 0 then .NORM_HAMMING else .NORM_L2, false,
      by simp only [configureMatcher, hbf, if_true]⟩
  · simp only [configureMatcher, hfl1, hfl2, if_true, if_false]
    split_ifs <;> rfl
  · unfold matchDescriptors
    rcases configureMatcher cv descSource descRef descriptorType matcherType with ⟨mo, s, t⟩
    simp only [compare_eq_zero_iff]
    by_cases h1 : selectorType = "SEL_NN"
    · cases mo <;> simp [h1]
    · by_cases h2 : selectorType = "SEL_KNN"
      · cases mo with
        | none => simp [h1, h2]
        | some m =>
          simp only [h1, h2, if_true, if_false, ne_eq, not_true_eq_false, and_false, iff_false,
            not_exists, not_and]
          intro r hr hcalls
          rcases ratioLoop_cases (cv.knnMatch m s t 2) M with h | ⟨R, h⟩
          · rw [h] at hr; cases hr
          · rw [h] at hr
            simp only [Except.map] at hr
            cases hr
            cases hcalls
      · have h3 : ¬ (selectorType = "SEL_NN") := h1
        simp only [h1, h2, if_false, ne_eq, not_false_eq_true, and_self, iff_true]
        exact ⟨_, rfl, rfl, rfl⟩

theorem addCorners_shiTomasi (cv : OpenCV) (C : List Point2f) (P : List KeyPoint) :
    detKeypointsShiTomasi.addCorners cv 4 C P = P ++ C.map (cornerKeyPoint cv) := by
  induction C generalizing P with
  | nil => simp [detKeypointsShiTomasi.addCorners]
  | cons c C ih =>
    simp [detKeypointsShiTomasi.addCorners, ih, cornerKeyPoint]

theorem addCorners_harris (cv : OpenCV) (C : List Point2f) (P : List KeyPoint) :
    detKeypointsHarris.addCorners cv 4 C P = P ++ C.map (cornerKeyPoint cv) := by
  induction C generalizing P with
  | nil => simp [detKeypointsHarris.addCorners]
  | cons c C ih =>
    simp [detKeypointsHarris.addCorners, ih, cornerKeyPoint]

theorem wrapInt32_range (n : Int) : -2 ^ 31 ≤ wrapInt32 n ∧ wrapInt32 n < 2 ^ 31 := by
  unfold wrapInt32
  constructor <;> omega

theorem wrapInt32_id (n : Int) (h0 : 0 ≤ n) (h1 : n < 2 ^ 31) : wrapInt32 n = n := by
  unfold wrapInt32
  omega

theorem minDistance_eq :
    F64.mul (F64.sub (F64.ofDecimal 10 1) (F64.ofDecimal 0 1)) (F64.ofInt 4)
      = .fin false (2 ^ 52) (-50) := by decide

theorem max_one_minDistance_eq :
    F64.max (F64.ofDecimal 10 1) (.fin false (2 ^ 52) (-50)) = .fin false (2 ^ 52) (-50) := by
  decide

theorem detKeypointsShiTomasi_eq (cv : OpenCV) (P : List KeyPoint) (img : Mat) (bVis : Bool) :
    detKeypointsShiTomasi cv P img bVis
      = .ok { keypoints := P ++ (cv.goodFeaturesToTrack img
                  ((wrapInt32 (img.rows * img.cols)).tdiv 4) (F64.ofDecimal 1 2)
                  (.fin false (2 ^ 52) (-50)) 4 false (F64.ofDecimal 4 2)).map (cornerKeyPoint cv),
              call := { img := img, maxCorners := (wrapInt32 (img.rows * img.cols)).tdiv 4,
                        qualityLevel := F64.ofDecimal 1 2,
                        minDistance := .fin false (2 ^ 52) (-50), blockSize := 4,
                        useHarrisDetector := false, k := F64.ofDecimal 4 2 },
              shown := bVis } := by
  have hr := wrapInt32_range (img.rows * img.cols)
  unfold detKeypointsShiTomasi
  simp only [minDistance_eq, max_one_minDistance_eq, toInt_div_four _ hr.1 hr.2,
    addCorners_shiTomasi]

theorem detKeypointsHarris_eq (cv : OpenCV) (P : List KeyPoint) (img : Mat) (bVis : Bool) :
    detKeypointsHarris cv P img bVis
      = .ok { keypoints := P ++ (cv.goodFeaturesToTrack img
                  ((wrapInt32 (img.rows * img.cols)).tdiv 4) (F64.ofDecimal 1 2)
                  (.fin false (2 ^ 52) (-50)) 4 true (F64.ofDecimal 4 2)).map (cornerKeyPoint cv),
              call := { img := img, maxCorners := (wrapInt32 (img.rows * img.cols)).tdiv 4,
                        qualityLevel := F64.ofDecimal 1 2,
                        minDistance := .fin false (2 ^ 52) (-50), blockSize := 4,
                        useHarrisDetector := true, k := F64.ofDecimal 4 2 },
              shown := bVis } := by
  have hr := wrapInt32_range (img.rows * img.cols)
  unfold detKeypointsHarris
  simp only [minDistance_eq, max_one_minDistance_eq, toInt_div_four _ hr.1 hr.2,
    addCorners_harris]

theorem toRat_four : F32.toRat (F32.ofInt 4) = some 4 := by
  have h : F32.ofInt 4 = .fin false ⟨2 ^ 23, by decide⟩ ⟨128, by decide⟩ := by decide
  rw [h]
  simp only [F32.toRat, F64.ofF32, F64.toRat, F64.finVal, F64.signed]
  norm_num

theorem toRat_minDistance : F64.toRat (.fin false (2 ^ 52) (-50)) = some 4 := by
  simp only [F64.toRat, F64.finVal, F64.signed]
  norm_num

theorem tdiv_four_nonneg (n : Int) (h : 0 ≤ n) : n.tdiv 4 = n / 4 :=
  Int.tdiv_eq_ediv h (by norm_num)

/-- C9: `detKeypointsShiTomasi` and `detKeypointsHarris` return normally and leave
`keypoints` as its prior content followed by one keypoint per corner returned by the
corner detector, in order, with the corner as position and the block size 4 as size;
the length grows by the number of corners, and on the same prior content and corner
list both loops build the same vector. -/
theorem C9_corners_become_keypoints (cv : OpenCV) (P : List KeyPoint) (img : Mat)
    (bVis : Bool) :
    ∃ rS rH : CornerResult,
      detKeypointsShiTomasi cv P img bVis = .ok rS ∧
      detKeypointsHarris cv P img bVis = .ok rH ∧
      rS.keypoints = P ++ (cv.goodFeaturesToTrack rS.call.img rS.call.maxCorners
          rS.call.qualityLevel rS.call.minDistance rS.call.blockSize false
          rS.call.k).map (cornerKeyPoint cv) ∧
      rH.keypoints = P ++ (cv.goodFeaturesToTrack rH.call.img rH.call.maxCorners
          rH.call.qualityLevel rH.call.minDistance rH.call.blockSize true
          rH.call.k).map (cornerKeyPoint cv) ∧
      rS.keypoints.length = P.length + (cv.goodFeaturesToTrack rS.call.img rS.call.maxCorners
          rS.call.qualityLevel rS.call.minDistance rS.call.blockSize false
          rS.call.k).length ∧
      rH.keypoints.length = P.length + (cv.goodFeaturesToTrack rH.call.img rH.call.maxCorners
          rH.call.qualityLevel rH.call.minDistance rH.call.blockSize true
          rH.call.k).length ∧
      (∀ c : Point2f, (cornerKeyPoint cv c).pt = c ∧
          (cornerKeyPoint cv c).size = F32.ofInt 4) ∧
      F32.toRat (F32.ofInt 4) = some 4 ∧
      (∀ (C : List Point2f) (Q : List KeyPoint),
          detKeypointsShiTomasi.addCorners cv 4 C Q = Q ++ C.map (cornerKeyPoint cv) ∧
          detKeypointsHarris.addCorners cv 4 C Q = Q ++ C.map (cornerKeyPoint cv)) := by
  refine ⟨_, _, detKeypointsShiTomasi_eq cv P img bVis, detKeypointsHarris_eq cv P img bVis,
    rfl, rfl, ?_, ?_, fun c => ⟨rfl, rfl⟩, toRat_four,
    fun C Q => ⟨addCorners_shiTomasi cv C Q, addCorners_harris cv C Q⟩⟩
  · simp
  · simp

/-- C10: for an image with `rows ≥ 0`, `cols ≥ 0` and `rows * cols < 2 ^ 31`, both
corner detectors call `cv::goodFeaturesToTrack` with `rows * cols / 4`, rounded toward
zero, as the maximum corner count (and with minimum distance 4, block size 4), the
minimum distance and `max(1, minDistance)` both being 4; that count is 0 exactly when
the image has fewer than 4 pixels. -/
theorem C10_max_corners (cv : OpenCV) (P : List KeyPoint) (img : Mat) (bVis : Bool)
    (hrows : 0 ≤ img.rows) (hcols : 0 ≤ img.cols) (hprod : img.rows * img.cols < 2 ^ 31) :
    detKeypointsShiTomasi cv P img bVis
      = .ok { keypoints := P ++ (cv.goodFeaturesToTrack img ((img.rows * img.cols).tdiv 4)
                  (F64.ofDecimal 1 2) (.fin false (2 ^ 52) (-50)) 4 false
                  (F64.ofDecimal 4 2)).map (cornerKeyPoint cv),
              call := { img := img, maxCorners := (img.rows * img.cols).tdiv 4,
                        qualityLevel := F64.ofDecimal 1 2,
                        minDistance := .fin false (2 ^ 52) (-50), blockSize := 4,
                        useHarrisDetector := false, k := F64.ofDecimal 4 2 },
              shown := bVis } ∧
    detKeypointsHarris cv P img bVis
      = .ok { keypoints := P ++ (cv.goodFeaturesToTrack img ((img.rows * img.cols).tdiv 4)
                  (F64.ofDecimal 1 2) (.fin false (2 ^ 52) (-50)) 4 true
                  (F64.ofDecimal 4 2)).map (cornerKeyPoint cv),
              call := { img := img, maxCorners := (img.rows * img.cols).tdiv 4,
                        qualityLevel := F64.ofDecimal 1 2,
                        minDistance := .fin false (2 ^ 52) (-50), blockSize := 4,
                        useHarrisDetector := true, k := F64.ofDecimal 4 2 },
              shown := bVis } ∧
    (img.rows * img.cols).tdiv 4 = img.rows * img.cols / 4 ∧
    F64.mul (F64.sub (F64.ofDecimal 10 1) (F64.ofDecimal 0 1)) (F64.ofInt 4)
      = .fin false (2 ^ 52) (-50) ∧
    F64.toRat (.fin false (2 ^ 52) (-50)) = some 4 ∧
    F64.toRat (F64.max (F64.ofDecimal 10 1) (.fin false (2 ^ 52) (-50))) = some 4 ∧
    ((img.rows * img.cols).tdiv 4 = 0 ↔ img.rows * img.cols < 4) := by
  have h0 : 0 ≤ img.rows * img.cols := Int.mul_nonneg hrows hcols
  have hw : wrapInt32 (img.rows * img.cols) = img.rows * img.cols := wrapInt32_id _ h0 hprod
  have ht := tdiv_four_nonneg _ h0
  have hz : (img.rows * img.cols).tdiv 4 = 0 ↔ img.rows * img.cols < 4 := by
    rw [ht]; omega
  have hS := detKeypointsShiTomasi_eq cv P img bVis
  have hH := detKeypointsHarris_eq cv P img bVis
  rw [hw] at hS hH
  refine ⟨hS, hH, ht, minDistance_eq, toRat_minDistance, ?_, hz⟩
  simp only [max_one_minDistance_eq, toRat_minDistance]

/-- A run of C10 on the 3 x 5 sample image: both detectors ask for 3 corners. -/
theorem C10_witness :
    0 ≤ sampleMat.rows ∧ 0 ≤ sampleMat.cols ∧ sampleMat.rows * sampleMat.cols < 2 ^ 31 ∧
    detKeypointsShiTomasi sampleCV [] sampleMat false
      = .ok { keypoints := [] ++ (sampleCV.goodFeaturesToTrack sampleMat
                  ((sampleMat.rows * sampleMat.cols).tdiv 4)
                  (F64.ofDecimal 1 2) (.fin false (2 ^ 52) (-50)) 4 false
                  (F64.ofDecimal 4 2)).map (cornerKeyPoint sampleCV),
              call := { img := sampleMat,
                        maxCorners := (sampleMat.rows * sampleMat.cols).tdiv 4,
                        qualityLevel := F64.ofDecimal 1 2,
                        minDistance := .fin false (2 ^ 52) (-50), blockSize := 4,
                        useHarrisDetector := false, k := F64.ofDecimal 4 2 },
              shown := false } ∧
    detKeypointsHarris sampleCV [] sampleMat false
      = .ok { keypoints := [] ++ (sampleCV.goodFeaturesToTrack sampleMat
                  ((sampleMat.rows * sampleMat.cols).tdiv 4)
                  (F64.ofDecimal 1 2) (.fin false (2 ^ 52) (-50)) 4 true
                  (F64.ofDecimal 4 2)).map (cornerKeyPoint sampleCV),
              call := { img := sampleMat,
                        maxCorners := (sampleMat.rows * sampleMat.cols).tdiv 4,
                        qualityLevel := F64.ofDecimal 1 2,
                        minDistance := .fin false (2 ^ 52) (-50), blockSize := 4,
                        useHarrisDetector := true, k := F64.ofDecimal 4 2 },
              shown := false } ∧
    (sampleMat.rows * sampleMat.cols).tdiv 4 = sampleMat.rows * sampleMat.cols / 4 ∧
    F64.mul (F64.sub (F64.ofDecimal 10 1) (F64.ofDecimal 0 1)) (F64.ofInt 4)
      = .fin false (2 ^ 52) (-50) ∧
    F64.toRat (.fin false (2 ^ 52) (-50)) = some 4 ∧
    F64.toRat (F64.max (F64.ofDecimal 10 1) (.fin false (2 ^ 52) (-50))) = some 4 ∧
    ((sampleMat.rows * sampleMat.cols).tdiv 4 = 0 ↔ sampleMat.rows * sampleMat.cols < 4) :=
  ⟨by decide, by decide, by decide,
    C10_max_corners sampleCV [] sampleMat false (by decide) (by decide) (by decide)⟩

theorem sample_maxCorners :
    (detKeypointsShiTomasi sampleCV [] sampleMat false).map (fun r => r.call.maxCorners)
      = .ok 3 := by decide

end Matching2D
